import Mathlib

/-!
Verification of the ingestion-and-upsert pipeline of the YouTube monitoring
dashboard (src/youtubemobile.py) against its natural-language specification.

Shallow embedding conventions:
- Python datetimes are modelled by their UTC components (a PyDateTime record);
  astimezone(UTC) is the identity in this model, and strftime zero-padded
  fields are modelled by explicit digit extraction.
- The single wall-clock instant observed during one call to db_upsert_videos
  is passed explicitly as a parameter now.
- The sqlite videos table is a list of Row values in insertion order; SQL
  UPDATE maps over all rows matching the WHERE clause, INSERT appends, and a
  primary-key violation is an Except.error, mirroring sqlite3.IntegrityError.
- Python dicts passed to db_upsert_videos are modelled by the Rec structure;
  a field read with dict.get(key) is an Option, and sourceKeyword, which the
  code reads both with default None and with default "pull", is an
  Option (Option String) distinguishing an absent key from a stored None.
- The effectful HTTP boundary (requests.get) is modelled by an oracle
  function from the varying request datum (API key, page token) to the
  observed outcome; the sequence of attempted calls is returned alongside
  the result so that call-order properties are expressible.
- Python float division in the sentiment heuristic is modelled by correctly
  rounded IEEE-754 binary64 division over the rationals (round to nearest,
  ties to even, gradual underflow, a raised OverflowError as none), which is
  the semantics of CPython int true division.
- The regex of parse_duration_iso8601 is modelled with Python re semantics:
  the anchor $ also matches just before one trailing newline, and the class
  backslash-d is the set of Unicode decimal digits (category Nd) of the
  runtime, tabulated as its 66 aligned runs of ten code points; int() of a
  digit group sums positional decimal digit values.
-/

/-- UTC components of an aware Python datetime, as printed by strftime. -/
structure PyDateTime where
  year : Nat
  month : Nat
  day : Nat
  hour : Nat
  minute : Nat
  second : Nat
deriving DecidableEq

/-- Bounds that Python datetime enforces at construction (MINYEAR..MAXYEAR). -/
def PyDateTime.valid (d : PyDateTime) : Bool :=
  decide (1 ≤ d.year) && decide (d.year ≤ 9999) &&
  decide (1 ≤ d.month) && decide (d.month ≤ 12) &&
  decide (1 ≤ d.day) && decide (d.day ≤ 31) &&
  decide (d.hour ≤ 23) && decide (d.minute ≤ 59) && decide (d.second ≤ 59)

/-- Two-digit zero-padded decimal rendering (strftime %m, %d, %H, %M, %S). -/
def pad2 (n : Nat) : List Char :=
  [Nat.digitChar (n / 10), Nat.digitChar (n % 10)]

/-- Four-digit zero-padded decimal rendering (strftime %Y). -/
def pad4 (n : Nat) : List Char :=
  [Nat.digitChar (n / 1000), Nat.digitChar (n / 100 % 10),
   Nat.digitChar (n / 10 % 10), Nat.digitChar (n % 10)]

/-- to_sql_utc_string: SQLite-friendly UTC string YYYY-MM-DD HH:MM:SS. -/
def to_sql_utc_string (d : PyDateTime) : String :=
  String.mk (pad4 d.year ++ '-' :: pad2 d.month ++ '-' :: pad2 d.day ++
             ' ' :: pad2 d.hour ++ ':' :: pad2 d.minute ++ ':' :: pad2 d.second)

/-- Values accepted by ensure_sql_utc_string: a datetime, a string, or None. -/
inductive TVal where
  | dt (d : PyDateTime)
  | str (s : String)
  | null
deriving DecidableEq

/-- ensure_sql_utc_string: datetime is normalized, a truthy (nonempty) string
is returned as is, anything else becomes the current time. -/
def ensure_sql_utc_string (now : PyDateTime) : TVal → String
  | .dt d => to_sql_utc_string d
  | .str s => if s = "" then to_sql_utc_string now else s
  | .null => to_sql_utc_string now

/-- Character class accepted at position i of YYYY-MM-DD HH:MM:SS. -/
def isSqlUtcChar (i : Nat) (c : Char) : Bool :=
  if i = 4 ∨ i = 7 then c = '-'
  else if i = 10 then c = ' '
  else if i = 13 ∨ i = 16 then c = ':'
  else c.isDigit

/-- Positional scan for the 19-character normalized timestamp shape. -/
def checkFormat : Nat → List Char → Bool
  | i, [] => i = 19
  | i, c :: cs => isSqlUtcChar i c && checkFormat (i + 1) cs

/-- Recognizer for the normalized UTC textual form YYYY-MM-DD HH:MM:SS. -/
def isSqlUtcString (s : String) : Bool :=
  checkFormat 0 s.data

/-- Starts of the aligned runs of ten consecutive Unicode decimal digits
(category Nd, digit values 0 to 9 in code-point order) that make up the
regex digit class of the CPython runtime. -/
def ndRangeStarts : List Nat :=
  [48, 1632, 1776, 1984, 2406, 2534, 2662, 2790, 2918, 3046, 3174, 3302,
   3430, 3558, 3664, 3792, 3872, 4160, 4240, 6112, 6160, 6470, 6608, 6784,
   6800, 6992, 7088, 7232, 7248, 42528, 43216, 43264, 43472, 43504, 43600,
   44016, 65296, 66720, 68912, 69734, 69872, 69942, 70096, 70384, 70736,
   70864, 71248, 71360, 71472, 71904, 72016, 72784, 73040, 73120, 92768,
   92864, 93008, 120782, 120792, 120802, 120812, 120822, 123200, 123632,
   125264, 130032]

/-- Decimal value of a Unicode decimal digit (the value Python int() gives
the character), none for a character outside the digit class. -/
def pyDigitVal (c : Char) : Option Nat :=
  ndRangeStarts.findSome? (fun s =>
    if s ≤ c.toNat ∧ c.toNat < s + 10 then some (c.toNat - s) else none)

/-- Membership in the regex digit class (Unicode category Nd). -/
def pyIsDigit (c : Char) : Bool :=
  (pyDigitVal c).isSome

/-- Maximal run of decimal digits at the head of the input (greedy regex
one-or-more-digits). -/
def takeDigits : List Char → List Char × List Char
  | [] => ([], [])
  | c :: cs =>
    if pyIsDigit c then
      let p := takeDigits cs
      (c :: p.1, p.2)
    else ([], c :: cs)

/-- One optional regex component of the form (?:(\d+)X)? at the current
position: the group participates only when a nonempty digit run is followed
immediately by the component letter; otherwise the input is left untouched. -/
def matchComponent (letter : Char) (cs : List Char) : Option (List Char) × List Char :=
  let p := takeDigits cs
  match p.1, p.2 with
  | [], _ => (none, cs)
  | _ :: _, r :: rest => if r = letter then (some p.1, rest) else (none, cs)
  | _ :: _, [] => (none, cs)

/-- Decimal value of a digit group: Python int() on a string of Unicode
decimal digits sums positional digit values. -/
def digitsToNat (ds : List Char) : Nat :=
  ds.foldl (fun n c => 10 * n + (pyDigitVal c).getD 0) 0

/-- re.match of the anchored duration pattern against the whole input,
returning the three optional group values. The final anchor $ matches at
the end of the string or just before a single newline ending the string. -/
def matchDuration (s : String) : Option (Option Nat × Option Nat × Option Nat) :=
  match s.data with
  | 'P' :: 'T' :: rest =>
    let ph := matchComponent 'H' rest
    let pm := matchComponent 'M' ph.2
    let ps := matchComponent 'S' pm.2
    if ps.2 = [] ∨ ps.2 = ['\n'] then
      some (ph.1.map digitsToNat, pm.1.map digitsToNat, ps.1.map digitsToNat)
    else none
  | _ => none

/-- parse_duration_iso8601: seconds represented by a restricted ISO-8601
duration code, or 0 if the pattern does not match. Total, so the model can
never raise, matching the Python function. -/
def parse_duration_iso8601 (duration : String) : Nat :=
  match matchDuration duration with
  | none => 0
  | some (h, m, s) => h.getD 0 * 3600 + m.getD 0 * 60 + s.getD 0

/-- Round a rational to the nearest integer with ties to the even integer:
the rounding IEEE-754 round-to-nearest-even applies to the scaled mantissa. -/
def roundNE (y : ℚ) : ℤ :=
  if y - ⌊y⌋ < 1 / 2 then ⌊y⌋
  else if (1 : ℚ) / 2 < y - ⌊y⌋ then ⌊y⌋ + 1
  else if ⌊y⌋ % 2 = 0 then ⌊y⌋ else ⌊y⌋ + 1

/-- Exponent of the binary64 value grid holding a positive rational: its
binade exponent, clamped below at the subnormal threshold. -/
def fexp (x : ℚ) : ℤ :=
  max (Int.log 2 x) (-1022)

/-- A positive rational correctly rounded to the IEEE-754 binary64 value
grid: the nearest multiple of 2^(fexp x - 52), ties to even. -/
def fround (x : ℚ) : ℚ :=
  (roundNE (x * (2 : ℚ) ^ ((52 : ℤ) - fexp x)) : ℚ) * (2 : ℚ) ^ (fexp x - 52)

/-- CPython int true division a / b: the exact rational correctly rounded
to binary64 (round to nearest, ties to even, gradual underflow below
2^(-1022)); none models a raised error (ZeroDivisionError for b = 0,
OverflowError when the rounded result reaches 2^1024). -/
def py_float_div (a b : Nat) : Option ℚ :=
  if b = 0 then none
  else if a = 0 then some 0
  else if fround ((a : ℚ) / (b : ℚ)) < 2 ^ 1024 then
    some (fround ((a : ℚ) / (b : ℚ)))
  else none

/-- simulate_sentiment_analysis on the non-negative domain the claims
quantify over: the engagement-ratio heuristic with the ratio computed by
Python float division; none models a raised OverflowError escaping the
function. -/
def simulate_sentiment_analysis (likes comments : Nat) : Option String :=
  if likes = 0 ∧ comments = 0 then some "Neutral"
  else
    match py_float_div likes (comments + 1) with
    | none => none
    | some rq =>
      some (if rq > 10 then "Positive"
            else if rq < 1 then "Negative"
            else "Neutral")

/-- One row of the sqlite videos table (all columns of the schema). -/
structure Row where
  videoId : String
  title : String
  channel : String
  channelId : String
  publishedAt : String
  views : Int
  likes : Int
  comments : Int
  category : String
  duration : Int
  liveStatus : String
  url : String
  thumbnail : String
  firstSeenSource : Option String
  lastUpdated : String
  sentiment : Option String
  sourceKeyword : Option String
  serial : Int
deriving DecidableEq

/-- One record of an upsert batch: the Python dict handed to
db_upsert_videos. Fields read via dict.get with a truthy-or-zero default are
Options; sourceKeyword distinguishes key-absent (outer none) from a stored
None (some none) because the code reads it with two different defaults. -/
structure Rec where
  videoId : String
  title : Option String
  channel : Option String
  channelId : Option String
  publishedAt : TVal
  views : Option Int
  likes : Option Int
  comments : Option Int
  category : Option String
  duration : Option Int
  liveStatus : Option String
  url : Option String
  thumbnail : Option String
  sentiment : Option String
  sourceKeyword : Option (Option String)
deriving DecidableEq

/-- Value of r.get("sourceKeyword"): None both when absent and when None. -/
def Rec.kw (r : Rec) : Option String :=
  match r.sourceKeyword with
  | none => none
  | some v => v

/-- Value of r.get("sourceKeyword", "pull"): the default applies only when
the key is absent, not when it is present holding None. -/
def Rec.firstSeen (r : Rec) : Option String :=
  match r.sourceKeyword with
  | none => some "pull"
  | some v => v

/-- videoId column of every row, in table order. -/
def rowIds (t : List Row) : List String :=
  t.map (fun row => row.videoId)

/-- SELECT COALESCE(MAX(serial), 0) FROM videos. -/
def maxSerial (t : List Row) : Int :=
  match t with
  | [] => 0
  | row :: rest => rest.foldl (fun m r2 => max m r2.serial) row.serial

/-- SELECT videoId FROM videos WHERE videoId IN (batch ids). -/
def existingIds (t : List Row) (rows : List Rec) : List String :=
  (rowIds t).filter (fun v => rows.any (fun r => r.videoId = v))

/-- Effect of the UPDATE statement on one matching row: every mutable column
is overwritten from the incoming record, lastUpdated is stamped, and
sourceKeyword is COALESCE(existing, incoming). serial and firstSeenSource do
not appear in the SET list. -/
def updateRow (now : PyDateTime) (r : Rec) (row : Row) : Row :=
  { row with
    title := r.title.getD ""
    channel := r.channel.getD ""
    channelId := r.channelId.getD ""
    publishedAt := ensure_sql_utc_string now r.publishedAt
    views := r.views.getD 0
    likes := r.likes.getD 0
    comments := r.comments.getD 0
    category := r.category.getD ""
    duration := r.duration.getD 0
    liveStatus := r.liveStatus.getD ""
    url := r.url.getD ""
    thumbnail := r.thumbnail.getD ""
    lastUpdated := to_sql_utc_string now
    sentiment := r.sentiment
    sourceKeyword :=
      match row.sourceKeyword with
      | some k => some k
      | none => r.kw }

/-- Row built by the INSERT statement for a record absent from the store. -/
def insertRow (now : PyDateTime) (r : Rec) (serial : Int) : Row :=
  { videoId := r.videoId
    title := r.title.getD ""
    channel := r.channel.getD ""
    channelId := r.channelId.getD ""
    publishedAt := ensure_sql_utc_string now r.publishedAt
    views := r.views.getD 0
    likes := r.likes.getD 0
    comments := r.comments.getD 0
    category := r.category.getD ""
    duration := r.duration.getD 0
    liveStatus := r.liveStatus.getD ""
    url := r.url.getD ""
    thumbnail := r.thumbnail.getD ""
    firstSeenSource := r.firstSeen
    lastUpdated := to_sql_utc_string now
    sentiment := r.sentiment
    sourceKeyword := r.kw
    serial := serial }

/-- The WHERE videoId=? conditional applied by the UPDATE to each table row. -/
def updFun (now : PyDateTime) (r : Rec) (row : Row) : Row :=
  if row.videoId = r.videoId then updateRow now r row else row

/-- Loop body of db_upsert_videos for one record: UPDATE when the videoId
was found by the upfront existence query, INSERT otherwise; inserting an id
already present violates the primary key (sqlite3.IntegrityError). -/
def upsert_one (now : PyDateTime) (existing : List String) (t : List Row)
    (r : Rec) : Except String (List Row) :=
  if r.videoId ∈ existing then
    .ok (t.map (updFun now r))
  else
    if r.videoId ∈ rowIds t then
      .error "UNIQUE constraint failed: videos.videoId"
    else
      .ok (t ++ [insertRow now r (maxSerial t + 1)])

/-- Loop of db_upsert_videos over the batch; an integrity error propagates. -/
def db_upsert_go (now : PyDateTime) (existing : List String) :
    List Row → List Rec → Except String (List Row)
  | t, [] => .ok t
  | t, r :: rs =>
    match upsert_one now existing t r with
    | .ok t2 => db_upsert_go now existing t2 rs
    | .error e => .error e

/-- db_upsert_videos: the set of already-present videoIds is computed once,
before the loop, against the initial table. -/
def db_upsert_videos (now : PyDateTime) (t : List Row) (rows : List Rec) :
    Except String (List Row) :=
  db_upsert_go now (existingIds t rows) t rows

/-- First row carrying the given videoId (the row addressed by the claims;
under the primary-key invariant it is the only one). -/
def findRow (t : List Row) (vid : String) : Option Row :=
  t.find? (fun row => row.videoId == vid)

/-- True exactly on the .ok outcome of an upsert. -/
def upsertOk (e : Except String (List Row)) : Bool :=
  match e with
  | .ok _ => true
  | .error _ => false

/-- Observable parts of a requests Response used by try_request. -/
structure MockResponse where
  status_code : Int
  reason : String
  content : String
deriving DecidableEq

/-- Outcome of one requests.get call: a response, or a raised
requests.exceptions.RequestException. -/
inductive CallResult where
  | ok (r : MockResponse)
  | exn (msg : String)

/-- Response synthesized by the except branch for a transport error. -/
def synth_failure (msg : String) : MockResponse :=
  { status_code := 500, reason := "Request Exception", content := msg }

/-- Loop of try_request over the key pool, threading the last-seen failure.
The second component of the result is the ordered list of keys attempted. -/
def try_request_go (call : String → CallResult) :
    List String → Option MockResponse → Option MockResponse × List String
  | [], lastr => (lastr, [])
  | k :: ks, _lastr =>
    match call k with
    | .ok r =>
      if r.status_code = 200 then (some r, [k])
      else
        let p := try_request_go call ks (some r)
        (p.1, k :: p.2)
    | .exn m =>
      let p := try_request_go call ks (some (synth_failure m))
      (p.1, k :: p.2)

/-- try_request: cycle through the API keys; return the first 200 response,
else the last-seen failure (none only when the key pool is empty). The
outcome of requests.get for a given key is supplied by the oracle call. -/
def try_request (call : String → CallResult) (keys : List String) :
    Option MockResponse × List String :=
  try_request_go call keys none

/-- Did this call outcome count as a failure for the rotation loop? -/
def resFailed : CallResult → Bool
  | .ok r => decide (r.status_code ≠ 200)
  | .exn _ => true

/-- Failure descriptor stored in last_response for a call outcome. -/
def failDesc : CallResult → MockResponse
  | .ok r => r
  | .exn m => synth_failure m

/-- One tagged search hit: a videoId paired with the originating query. -/
structure Tagged where
  videoId : String
  sourceKeyword : String
deriving DecidableEq

/-- One observed response of the search endpoint for a given page token:
either a failure (non-200 status, or no response at all), or a page holding
the optional videoId of each item plus the optional nextPageToken. -/
inductive SearchResp where
  | fail (status : Int)
  | page (items : List (Option String)) (next : Option String)

/-- Items of one page that carry a videoId, tagged with the query. -/
def tagItems (q : String) (items : List (Option String)) : List Tagged :=
  items.filterMap (fun o => o.map (fun v => { videoId := v, sourceKeyword := q }))

/-- Pagination loop of youtube_search. The oracle call maps the pageToken
sent (none on the first call) to the observed response. fuel bounds the
number of iterations: none means the Python loop would still be running;
a some result also counts the API calls made. -/
def youtube_search_go (call : Option String → SearchResp) (q : String)
    (maxRes : Nat) : Nat → Option String → List Tagged →
    Option (List Tagged × Nat)
  | 0, _, _ => none
  | fuel + 1, tok, acc =>
    match call tok with
    | .fail _ => some (acc, 1)
    | .page items next =>
      let acc2 := acc ++ tagItems q items
      match next with
      | none => some (acc2, 1)
      | some nt =>
        if maxRes ≤ acc2.length then some (acc2, 1)
        else
          match youtube_search_go call q maxRes fuel (some nt) acc2 with
          | none => none
          | some (res, n) => some (res, n + 1)

/-- youtube_search: paged search accumulating tagged ids, starting with no
page token; maxRes is params maxResults (50 unless overridden by kwargs). -/
def youtube_search (call : Option String → SearchResp) (q : String)
    (maxRes : Nat) (fuel : Nat) : Option (List Tagged × Nat) :=
  youtube_search_go call q maxRes fuel none []

/-- Nonempty group of Unicode decimal digits (one regex digit capture). -/
def digitsOk (ds : List Char) : Bool :=
  !ds.isEmpty && ds.all (fun c => pyIsDigit c)

/-- Wellformedness of one optional duration component group. -/
def groupOk : Option (List Char) → Bool
  | none => true
  | some ds => digitsOk ds

/-- Numeric value of one optional duration component group. -/
def groupVal : Option (List Char) → Nat
  | none => 0
  | some ds => digitsToNat ds

/-- Characters contributed by one optional component of the grammar. -/
def compChars : Option (List Char) → Char → List Char
  | none, _ => []
  | some ds, letter => ds ++ [letter]

/-- Trailing characters accepted by the anchor $ beyond the components:
nothing, or one final newline. -/
def nlChars (nl : Bool) : List Char :=
  if nl then ['\n'] else []

/-- A string of the duration grammar PT[nH][nM][nS], each component an
optional nonempty Unicode-digit group followed by its letter, optionally
ending in a single newline (which the anchor $ accepts). -/
def renderDuration (gh gm gs : Option (List Char)) (nl : Bool) : String :=
  String.mk ('P' :: 'T' ::
    (compChars gh 'H' ++ compChars gm 'M' ++ compChars gs 'S' ++ nlChars nl))

/-- Serial and firstSeenSource of a row: the two insert-time-only columns. -/
def projSF (row : Row) : Int × Option String :=
  (row.serial, row.firstSeenSource)

/-- Incoming publishedAt is a valid structured timestamp or absent (the
inputs for which normalization applies; a raw string is passed through). -/
def pubOkRec (r : Rec) : Bool :=
  match r.publishedAt with
  | .dt d => d.valid
  | .str _ => false
  | .null => true

/-- Occurrences of a videoId within an upsert batch. -/
def recCount (vid : String) (rs : List Rec) : Nat :=
  (rs.filter (fun r => r.videoId == vid)).length

/-- Fixed wall-clock instant used by the concrete scenarios. -/
def now0 : PyDateTime :=
  { year := 2024, month := 5, day := 6, hour := 7, minute := 8, second := 9 }

/-- Minimal batch record carrying only a videoId. -/
def mkRec (vid : String) : Rec :=
  { videoId := vid, title := none, channel := none, channelId := none,
    publishedAt := TVal.null, views := none, likes := none, comments := none,
    category := none, duration := none, liveStatus := none, url := none,
    thumbnail := none, sentiment := none, sourceKeyword := none }

/-- Minimal stored row with a given videoId and serial. -/
def mkRow (vid : String) (serial : Int) : Row :=
  { videoId := vid, title := "", channel := "", channelId := "",
    publishedAt := "", views := 0, likes := 0, comments := 0, category := "",
    duration := 0, liveStatus := "", url := "", thumbnail := "",
    firstSeenSource := none, lastUpdated := "", sentiment := none,
    sourceKeyword := none, serial := serial }

/-- Stored row of the coalesce scenario: keyword already recorded. -/
def rowC2 : Row := { mkRow "A" 1 with sourceKeyword := some "cisf" }

/-- Incoming update of the coalesce scenario: keyword present but None. -/
def recC2 : Rec := { mkRec "A" with sourceKeyword := some none }

/-- Stored row of the publishedAt scenario. -/
def rowC3 : Row := { mkRow "A" 1 with publishedAt := "2024-01-01 00:00:00" }

/-- Incoming update of the publishedAt scenario with a different timestamp. -/
def recC3 : Rec := { mkRec "A" with publishedAt := TVal.str "2025-02-02 12:00:00" }

/-- Incoming insert whose publishedAt is a raw non-timestamp string. -/
def recC4 : Rec := { mkRec "B" with publishedAt := TVal.str "not-a-timestamp" }

/-- Incoming insert whose publishedAt is a valid structured timestamp. -/
def recC4b : Rec :=
  { mkRec "C" with
    publishedAt := TVal.dt
      { year := 2023, month := 1, day := 2, hour := 3, minute := 4, second := 5 } }

/-- Oracle of the rotation scenario: two quota failures then a success. -/
def cexCall : String → CallResult := fun k =>
  if k = "key3" then .ok { status_code := 200, reason := "OK", content := "body" }
  else .ok { status_code := 403, reason := "Forbidden", content := "quota" }

/-- Single search page of the pagination scenario: ten items, no next token. -/
def cexItems : List (Option String) :=
  [some "v01", some "v02", some "v03", some "v04", some "v05",
   some "v06", some "v07", some "v08", some "v09", some "v10"]

/-- Search oracle answering every token with the single fixed page. -/
def cexApi : Option String → SearchResp := fun _ => .page cexItems none

theorem string_mk_cons_ne_empty (c : Char) (l : List Char) :
    String.mk (c :: l) ≠ "" := by
  intro h
  have h2 : ((String.mk (c :: l)).data).length = (("" : String).data).length :=
    congrArg (fun s => s.data.length) h
  simp at h2

theorem to_sql_ne_empty (d : PyDateTime) : to_sql_utc_string d ≠ "" := by
  simpa [to_sql_utc_string, pad4] using
    string_mk_cons_ne_empty (Nat.digitChar (d.year / 1000))
      (Nat.digitChar (d.year / 100 % 10) :: Nat.digitChar (d.year / 10 % 10) ::
        Nat.digitChar (d.year % 10) :: '-' :: pad2 d.month ++ '-' :: pad2 d.day ++
        ' ' :: pad2 d.hour ++ ':' :: pad2 d.minute ++ ':' :: pad2 d.second)

/-- C7: normalizeForStorage (ensure_sql_utc_string) is idempotent: feeding
its own output back in as a string yields the same output, for every input
value (structured timestamp, string, or absent) and every current time. -/
theorem ensure_sql_utc_string_idem (now : PyDateTime) (x : TVal) :
    ensure_sql_utc_string now (TVal.str (ensure_sql_utc_string now x)) =
      ensure_sql_utc_string now x := by
  cases x with
  | dt d => simp [ensure_sql_utc_string, to_sql_ne_empty d]
  | str s =>
    by_cases h : s = ""
    · simp [ensure_sql_utc_string, h, to_sql_ne_empty now]
    · simp [ensure_sql_utc_string, h]
  | null => simp [ensure_sql_utc_string, to_sql_ne_empty now]

theorem two_zpow_neg (n : ℕ) : (2 : ℚ) ^ (-(n : ℤ)) = ((2 : ℚ) ^ n)⁻¹ := by
  rw [zpow_neg, zpow_natCast]

theorem roundNE_le (y : ℚ) : (roundNE y : ℚ) ≤ y + 1 / 2 := by
  unfold roundNE
  have hfl : ((⌊y⌋ : ℤ) : ℚ) ≤ y := Int.floor_le y
  split
  · linarith
  · rename_i h1
    split
    · rename_i h2
      push_cast
      linarith
    · rename_i h2
      have h3 : y - (⌊y⌋ : ℚ) = 1 / 2 :=
        le_antisymm (le_of_not_lt h2) (le_of_not_lt h1)
      split
      · linarith
      · push_cast
        linarith

theorem le_roundNE (y : ℚ) : y - 1 / 2 ≤ (roundNE y : ℚ) := by
  unfold roundNE
  have hfl : ((⌊y⌋ : ℤ) : ℚ) ≤ y := Int.floor_le y
  have hlt : y < (⌊y⌋ : ℚ) + 1 := Int.lt_floor_add_one y
  split
  · rename_i h1
    linarith
  · rename_i h1
    split
    · rename_i h2
      push_cast
      linarith
    · rename_i h2
      have h3 : y - (⌊y⌋ : ℚ) = 1 / 2 :=
        le_antisymm (le_of_not_lt h2) (le_of_not_lt h1)
      split
      · linarith
      · push_cast
        linarith

theorem roundNE_intCast (k : ℤ) : roundNE (k : ℚ) = k := by
  unfold roundNE
  rw [Int.floor_intCast]
  rw [if_pos (by norm_num : (k : ℚ) - (k : ℚ) < 1 / 2)]

theorem fexp_eq_log (x : ℚ) (hx : (2 : ℚ) ^ (-1022 : ℤ) ≤ x) :
    fexp x = Int.log 2 x := by
  have hge : (-1022 : ℤ) ≤ Int.log 2 x := by
    by_contra hlt
    push_neg at hlt
    have h1 : x < (2 : ℚ) ^ (Int.log 2 x + 1) :=
      Int.lt_zpow_succ_log_self (by norm_num) x
    have h2 : (2 : ℚ) ^ (Int.log 2 x + 1) ≤ (2 : ℚ) ^ (-1022 : ℤ) :=
      zpow_le_zpow_right₀ (by norm_num) (by omega)
    linarith
  unfold fexp
  exact max_eq_left hge

theorem fexp_le (x : ℚ) (hx0 : 0 < x) (hx : (2 : ℚ) ^ (-1022 : ℤ) ≤ x) :
    (2 : ℚ) ^ fexp x ≤ x := by
  rw [fexp_eq_log x hx]
  exact Int.zpow_log_le_self (by norm_num) hx0

theorem lt_fexp_succ (x : ℚ) (hx : (2 : ℚ) ^ (-1022 : ℤ) ≤ x) :
    x < (2 : ℚ) ^ (fexp x + 1) := by
  rw [fexp_eq_log x hx]
  exact Int.lt_zpow_succ_log_self (by norm_num) x

theorem fround_bounds (x : ℚ) :
    x - (2 : ℚ) ^ (fexp x - 53) ≤ fround x ∧
    fround x ≤ x + (2 : ℚ) ^ (fexp x - 53) := by
  unfold fround
  have h2 : (2 : ℚ) ≠ 0 := by norm_num
  have hpos : (0 : ℚ) < (2 : ℚ) ^ (fexp x - 52) := zpow_pos (by norm_num) _
  have hy1 := roundNE_le (x * (2 : ℚ) ^ ((52 : ℤ) - fexp x))
  have hy2 := le_roundNE (x * (2 : ℚ) ^ ((52 : ℤ) - fexp x))
  have hxy : x * (2 : ℚ) ^ ((52 : ℤ) - fexp x) * (2 : ℚ) ^ (fexp x - 52) = x := by
    rw [mul_assoc, ← zpow_add₀ h2]
    rw [show (52 : ℤ) - fexp x + (fexp x - 52) = 0 by ring, zpow_zero, mul_one]
  have hhalf : (1 / 2 : ℚ) * (2 : ℚ) ^ (fexp x - 52) = (2 : ℚ) ^ (fexp x - 53) := by
    rw [show fexp x - 53 = (-1) + (fexp x - 52) by ring, zpow_add₀ h2]
    norm_num
  constructor
  · have hexp : x - (2 : ℚ) ^ (fexp x - 53) =
        (x * (2 : ℚ) ^ ((52 : ℤ) - fexp x) - 1 / 2) * (2 : ℚ) ^ (fexp x - 52) := by
      rw [sub_mul, hxy, hhalf]
    rw [hexp]
    exact mul_le_mul_of_nonneg_right hy2 hpos.le
  · have hexp : x + (2 : ℚ) ^ (fexp x - 53) =
        (x * (2 : ℚ) ^ ((52 : ℤ) - fexp x) + 1 / 2) * (2 : ℚ) ^ (fexp x - 52) := by
      rw [add_mul, hxy, hhalf]
    rw [hexp]
    exact mul_le_mul_of_nonneg_right hy1 hpos.le

theorem fround_exact (x : ℚ) (k : ℤ)
    (hk : x * (2 : ℚ) ^ ((52 : ℤ) - fexp x) = (k : ℚ)) :
    fround x = x := by
  unfold fround
  rw [hk, roundNE_intCast, ← hk, mul_assoc, ← zpow_add₀ (by norm_num : (2 : ℚ) ≠ 0)]
  rw [show (52 : ℤ) - fexp x + (fexp x - 52) = 0 by ring, zpow_zero, mul_one]

theorem int_mul_two_zpow_eq (m : ℤ) (e : ℤ) (he : 0 ≤ e) :
    (m : ℚ) * (2 : ℚ) ^ e = ((m * 2 ^ e.toNat : ℤ) : ℚ) := by
  have h : (2 : ℚ) ^ e = (2 : ℚ) ^ (e.toNat : ℤ) := by
    rw [Int.toNat_of_nonneg he]
  rw [h, zpow_natCast]
  push_cast
  ring

theorem log2_eq_of_bounds (x : ℚ) (e : ℤ)
    (h1 : (2 : ℚ) ^ e ≤ x) (h2 : x < (2 : ℚ) ^ (e + 1)) :
    Int.log 2 x = e := by
  have hx : (0 : ℚ) < x := lt_of_lt_of_le (zpow_pos (by norm_num) e) h1
  have hle : e ≤ Int.log 2 x :=
    (Int.zpow_le_iff_le_log (by norm_num) hx).1 (by exact_mod_cast h1)
  have hlt : Int.log 2 x < e + 1 :=
    (Int.lt_zpow_iff_log_lt (by norm_num) hx).1 (by exact_mod_cast h2)
  omega

theorem roundNE_int_add_half (k : ℤ) (hk : k % 2 = 0) :
    roundNE ((k : ℚ) + 1 / 2) = k := by
  have hfl : ⌊(k : ℚ) + 1 / 2⌋ = k := by
    rw [add_comm, Int.floor_add_int]
    norm_num
  unfold roundNE
  rw [hfl]
  have hsub : (k : ℚ) + 1 / 2 - (k : ℚ) = 1 / 2 := by ring
  rw [hsub]
  rw [if_neg (by norm_num), if_neg (by norm_num), if_pos hk]

/-- C6 counterexample to the original claim: the exact ratio at this input
strictly exceeds 10, but CPython float division rounds it to exactly 10.0
(the tie between 10 and the next double goes to the even mantissa), so the
program returns Neutral where the claim demands Positive. -/
theorem sentiment_float_boundary_cex :
    simulate_sentiment_analysis 90071992547409928 9007199254740991 =
      some "Neutral"
    ∧ (90071992547409928 : ℚ) / ((9007199254740991 : ℚ) + 1) > 10 := by
  have hgt : (90071992547409928 : ℚ) / ((9007199254740991 : ℚ) + 1) > 10 := by
    rw [gt_iff_lt, lt_div_iff (by norm_num)]
    norm_num
  refine ⟨?_, hgt⟩
  have hxdef : ((90071992547409928 : ℕ) : ℚ) / ((9007199254740992 : ℕ) : ℚ) =
      (90071992547409928 : ℚ) / (9007199254740992 : ℚ) := by
    norm_num
  have hfe : fexp ((90071992547409928 : ℚ) / (9007199254740992 : ℚ)) = 3 := by
    have h1 : (2 : ℚ) ^ (3 : ℤ) ≤
        (90071992547409928 : ℚ) / (9007199254740992 : ℚ) := by
      rw [le_div_iff (by norm_num)]
      norm_num
    have h2 : (90071992547409928 : ℚ) / (9007199254740992 : ℚ) <
        (2 : ℚ) ^ ((3 : ℤ) + 1) := by
      rw [div_lt_iff (by norm_num)]
      norm_num
    unfold fexp
    rw [log2_eq_of_bounds _ 3 h1 h2]
    decide
  have hy : (90071992547409928 : ℚ) / (9007199254740992 : ℚ) *
      (2 : ℚ) ^ ((52 : ℤ) -
        fexp ((90071992547409928 : ℚ) / (9007199254740992 : ℚ))) =
      ((5629499534213120 : ℤ) : ℚ) + 1 / 2 := by
    rw [hfe, show (52 : ℤ) - 3 = ((49 : ℕ) : ℤ) by norm_num, zpow_natCast]
    norm_num
  have hfr : fround ((90071992547409928 : ℚ) / (9007199254740992 : ℚ)) = 10 := by
    unfold fround
    rw [hy, roundNE_int_add_half 5629499534213120 (by decide), hfe]
    rw [show (3 : ℤ) - 52 = -((49 : ℕ) : ℤ) by norm_num, two_zpow_neg]
    norm_num
  have hdiv : py_float_div 90071992547409928 9007199254740992 = some 10 := by
    unfold py_float_div
    rw [if_neg (by norm_num), if_neg (by norm_num), hxdef, hfr]
    rw [if_pos (by
      calc (10 : ℚ) < (2 : ℚ) ^ (4 : ℕ) := by norm_num
      _ ≤ 2 ^ 1024 := pow_le_pow_right₀ (by norm_num) (by norm_num))]
  unfold simulate_sentiment_analysis
  rw [if_neg (by norm_num),
    show (9007199254740991 + 1 : ℕ) = 9007199254740992 by norm_num, hdiv]
  norm_num

/-- C6 (amended): the heuristic is Neutral at zero engagement; otherwise the
ratio is likes / (comments + 1) computed by Python float division (IEEE-754
binary64, round to nearest, ties to even), Positive above 10, Negative
below 1, Neutral in between. On the domain likes at most 2^1000 and
comments + 1 at most 2^49 the float comparison agrees with the exact
rational one, so the original thresholds hold there, boundaries (exact
ratio 1 or 10) giving Neutral; beyond it rounding can land exactly on a
boundary (the counterexample) and the division can even overflow. -/
theorem sentiment_spec (likes comments : Nat)
    (hl : likes ≤ 2 ^ 1000) (hc : comments + 1 ≤ 2 ^ 49) :
    (likes = 0 ∧ comments = 0 →
      simulate_sentiment_analysis likes comments = some "Neutral")
    ∧ (¬(likes = 0 ∧ comments = 0) →
        ((likes : ℚ) / ((comments : ℚ) + 1) > 10 →
          simulate_sentiment_analysis likes comments = some "Positive")
        ∧ ((likes : ℚ) / ((comments : ℚ) + 1) < 1 →
          simulate_sentiment_analysis likes comments = some "Negative")
        ∧ (1 ≤ (likes : ℚ) / ((comments : ℚ) + 1) →
           (likes : ℚ) / ((comments : ℚ) + 1) ≤ 10 →
          simulate_sentiment_analysis likes comments = some "Neutral")) := by
  have hbne : comments + 1 ≠ 0 := Nat.succ_ne_zero comments
  have hBpos : (0 : ℚ) < (comments : ℚ) + 1 :=
    add_pos_of_nonneg_of_pos (Nat.cast_nonneg comments) one_pos
  have hBcast : ((comments + 1 : ℕ) : ℚ) = (comments : ℚ) + 1 := by push_cast; ring
  have hB49 : (comments : ℚ) + 1 ≤ 2 ^ 49 := by
    have h := (Nat.cast_le (α := ℚ)).2 hc
    push_cast at h
    linarith
  constructor
  · rintro ⟨rfl, rfl⟩
    rfl
  · intro hnz
    by_cases hl0 : likes = 0
    · subst hl0
      have hdiv0 : py_float_div 0 (comments + 1) = some 0 := by
        unfold py_float_div
        rw [if_neg hbne, if_pos rfl]
      have hsim : simulate_sentiment_analysis 0 comments = some "Negative" := by
        unfold simulate_sentiment_analysis
        rw [if_neg hnz, hdiv0]
        show some (if (0 : ℚ) > 10 then "Positive"
              else if (0 : ℚ) < 1 then "Negative" else "Neutral") = some "Negative"
        norm_num
      have hzero : ((0 : ℕ) : ℚ) / ((comments : ℚ) + 1) = 0 := by norm_num
      refine ⟨?_, ?_, ?_⟩
      · intro hgt
        rw [hzero] at hgt
        norm_num at hgt
      · intro _
        exact hsim
      · intro h1 _
        rw [hzero] at h1
        norm_num at h1
    · have hl1 : 1 ≤ likes := Nat.one_le_iff_ne_zero.2 hl0
      have hlq : (1 : ℚ) ≤ (likes : ℚ) := by exact_mod_cast hl1
      have hlq2 : (likes : ℚ) ≤ 2 ^ 1000 := by
        have h := (Nat.cast_le (α := ℚ)).2 hl
        push_cast at h
        linarith
      set x : ℚ := (likes : ℚ) / ((comments : ℚ) + 1) with hxdef
      have hxpos : 0 < x := by
        rw [hxdef]
        exact div_pos (by linarith) hBpos
      have hinv1 : ((comments : ℚ) + 1)⁻¹ ≤ x := by
        rw [hxdef, ← one_div]
        exact (div_le_div_right hBpos).2 hlq
      have hgap : ((2 : ℚ) ^ (49 : ℕ))⁻¹ ≤ ((comments : ℚ) + 1)⁻¹ := by
        apply inv_le_inv_of_le hBpos
        calc (comments : ℚ) + 1 ≤ 2 ^ 49 := hB49
        _ = (2 : ℚ) ^ (49 : ℕ) := by norm_num
      have hx1022 : (2 : ℚ) ^ (-1022 : ℤ) ≤ x := by
        calc (2 : ℚ) ^ (-1022 : ℤ) ≤ (2 : ℚ) ^ (-(49 : ℤ)) :=
              zpow_le_zpow_right₀ (by norm_num) (by omega)
        _ = ((2 : ℚ) ^ (49 : ℕ))⁻¹ := by
              rw [show (-(49 : ℤ)) = -((49 : ℕ) : ℤ) by norm_num, two_zpow_neg]
        _ ≤ ((comments : ℚ) + 1)⁻¹ := hgap
        _ ≤ x := hinv1
      have hle : (2 : ℚ) ^ fexp x ≤ x := fexp_le x hxpos hx1022
      have hltx : x < (2 : ℚ) ^ (fexp x + 1) := lt_fexp_succ x hx1022
      have hclose := fround_bounds x
      have h2e53 : (2 : ℚ) ^ (fexp x - 53) ≤ x := by
        calc (2 : ℚ) ^ (fexp x - 53) ≤ (2 : ℚ) ^ fexp x :=
              zpow_le_zpow_right₀ (by norm_num) (by omega)
        _ ≤ x := hle
      have hxle : x ≤ (likes : ℚ) := by
        rw [hxdef]
        apply div_le_self (by linarith) (by linarith)
      have hnof : fround x < 2 ^ 1024 := by
        have h1 : fround x ≤ x + x := by linarith [hclose.2]
        have h2 : x + x ≤ 2 * (2 : ℚ) ^ (1000 : ℕ) := by
          have : x ≤ (2 : ℚ) ^ (1000 : ℕ) := le_trans hxle hlq2
          linarith
        have h3 : 2 * (2 : ℚ) ^ (1000 : ℕ) = (2 : ℚ) ^ (1001 : ℕ) := by ring
        have h4 : (2 : ℚ) ^ (1001 : ℕ) < (2 : ℚ) ^ (1024 : ℕ) :=
          pow_lt_pow_right (by norm_num) (by norm_num)
        linarith
      have hdiv : py_float_div likes (comments + 1) = some (fround x) := by
        unfold py_float_div
        rw [if_neg hbne, if_neg hl0, hBcast, ← hxdef, if_pos hnof]
      have hsim : simulate_sentiment_analysis likes comments =
          some (if fround x > 10 then "Positive"
                else if fround x < 1 then "Negative" else "Neutral") := by
        unfold simulate_sentiment_analysis
        rw [if_neg hnz, hdiv]
      refine ⟨?_, ?_, ?_⟩
      · intro hx10
        have hgt : 10 * ((comments : ℚ) + 1) < (likes : ℚ) := by
          rw [hxdef] at hx10
          exact (lt_div_iff hBpos).1 hx10
        have hnat : 10 * (comments + 1) < likes := by
          have h : ((10 * (comments + 1) : ℕ) : ℚ) < (likes : ℚ) := by
            push_cast
            linarith
          exact_mod_cast h
        have hq : 10 * ((comments : ℚ) + 1) + 1 ≤ (likes : ℚ) := by
          have h1 : 10 * (comments + 1) + 1 ≤ likes := hnat
          have h2 := (Nat.cast_le (α := ℚ)).2 h1
          push_cast at h2
          linarith
        have hxgap : 10 + ((comments : ℚ) + 1)⁻¹ ≤ x := by
          rw [hxdef, le_div_iff hBpos]
          have hBne : ((comments : ℚ) + 1) ≠ 0 := ne_of_gt hBpos
          calc (10 + ((comments : ℚ) + 1)⁻¹) * ((comments : ℚ) + 1)
              = 10 * ((comments : ℚ) + 1) + 1 := by field_simp
          _ ≤ (likes : ℚ) := hq
        rcases le_or_lt (fexp x) 3 with he3 | he4
        · have herr : (2 : ℚ) ^ (fexp x - 53) ≤ ((2 : ℚ) ^ (50 : ℕ))⁻¹ := by
            calc (2 : ℚ) ^ (fexp x - 53) ≤ (2 : ℚ) ^ (-(50 : ℤ)) :=
                  zpow_le_zpow_right₀ (by norm_num) (by omega)
            _ = ((2 : ℚ) ^ (50 : ℕ))⁻¹ := by
                  rw [show (-(50 : ℤ)) = -((50 : ℕ) : ℤ) by norm_num, two_zpow_neg]
          have hnum : ((2 : ℚ) ^ (50 : ℕ))⁻¹ < ((2 : ℚ) ^ (49 : ℕ))⁻¹ := by norm_num
          have hgt10 : (10 : ℚ) < fround x := by
            linarith [hclose.1, hgap]
          rw [hsim, if_pos hgt10]
        · have hx16 : (16 : ℚ) ≤ x := by
            calc (16 : ℚ) = (2 : ℚ) ^ (4 : ℤ) := by norm_num
            _ ≤ (2 : ℚ) ^ fexp x := zpow_le_zpow_right₀ (by norm_num) (by omega)
            _ ≤ x := hle
          have herr : (2 : ℚ) ^ (fexp x - 53) ≤ x * ((2 : ℚ) ^ (53 : ℕ))⁻¹ := by
            calc (2 : ℚ) ^ (fexp x - 53)
                = (2 : ℚ) ^ fexp x * ((2 : ℚ) ^ (53 : ℕ))⁻¹ := by
                  rw [show fexp x - 53 = fexp x + (-((53 : ℕ) : ℤ)) by omega,
                    zpow_add₀ (by norm_num : (2 : ℚ) ≠ 0), two_zpow_neg]
            _ ≤ x * ((2 : ℚ) ^ (53 : ℕ))⁻¹ :=
                  mul_le_mul_of_nonneg_right hle (by positivity)
          have hgt10 : (10 : ℚ) < fround x := by
            linarith [hclose.1, hx16]
          rw [hsim, if_pos hgt10]
      · intro hx1
        have hgt : (likes : ℚ) < (comments : ℚ) + 1 := by
          rw [hxdef] at hx1
          exact (div_lt_one hBpos).1 hx1
        have hnat : likes < comments + 1 := by
          have h : (likes : ℚ) < ((comments + 1 : ℕ) : ℚ) := by
            push_cast
            linarith
          exact_mod_cast h
        have hq : (likes : ℚ) + 1 ≤ (comments : ℚ) + 1 := by
          have h1 : likes + 1 ≤ comments + 1 := hnat
          have h2 := (Nat.cast_le (α := ℚ)).2 h1
          push_cast at h2
          linarith
        have hxgap : x ≤ 1 - ((comments : ℚ) + 1)⁻¹ := by
          rw [hxdef, div_le_iff hBpos]
          have hBne : ((comments : ℚ) + 1) ≠ 0 := ne_of_gt hBpos
          calc (likes : ℚ) ≤ ((comments : ℚ) + 1) - 1 := by linarith
          _ = (1 - ((comments : ℚ) + 1)⁻¹) * ((comments : ℚ) + 1) := by
                field_simp
        have heneg : fexp x ≤ -1 := by
          by_contra hpos2
          push_neg at hpos2
          have h1 : (1 : ℚ) ≤ (2 : ℚ) ^ fexp x := by
            calc (1 : ℚ) = (2 : ℚ) ^ (0 : ℤ) := by norm_num
            _ ≤ (2 : ℚ) ^ fexp x := zpow_le_zpow_right₀ (by norm_num) (by omega)
          linarith [hle]
        have herr : (2 : ℚ) ^ (fexp x - 53) ≤ ((2 : ℚ) ^ (54 : ℕ))⁻¹ := by
          calc (2 : ℚ) ^ (fexp x - 53) ≤ (2 : ℚ) ^ (-(54 : ℤ)) :=
                zpow_le_zpow_right₀ (by norm_num) (by omega)
          _ = ((2 : ℚ) ^ (54 : ℕ))⁻¹ := by
                rw [show (-(54 : ℤ)) = -((54 : ℕ) : ℤ) by norm_num, two_zpow_neg]
        have hnum : ((2 : ℚ) ^ (54 : ℕ))⁻¹ < ((2 : ℚ) ^ (49 : ℕ))⁻¹ := by norm_num
        have hlt1 : fround x < 1 := by
          linarith [hclose.2, hgap]
        have hngt : ¬(fround x > 10) := by linarith
        rw [hsim, if_neg hngt, if_pos hlt1]
      · intro hge1 hle10
        have he0 : 0 ≤ fexp x := by
          by_contra hneg
          push_neg at hneg
          have h1 : (2 : ℚ) ^ (fexp x + 1) ≤ 1 := by
            calc (2 : ℚ) ^ (fexp x + 1) ≤ (2 : ℚ) ^ (0 : ℤ) :=
                  zpow_le_zpow_right₀ (by norm_num) (by omega)
            _ = 1 := by norm_num
          linarith [hltx]
        have he3 : fexp x ≤ 3 := by
          by_contra h4
          push_neg at h4
          have h1 : (16 : ℚ) ≤ (2 : ℚ) ^ fexp x := by
            calc (16 : ℚ) = (2 : ℚ) ^ (4 : ℤ) := by norm_num
            _ ≤ (2 : ℚ) ^ fexp x := zpow_le_zpow_right₀ (by norm_num) (by omega)
          linarith [hle]
        have herr : (2 : ℚ) ^ (fexp x - 53) ≤ ((2 : ℚ) ^ (50 : ℕ))⁻¹ := by
          calc (2 : ℚ) ^ (fexp x - 53) ≤ (2 : ℚ) ^ (-(50 : ℤ)) :=
                zpow_le_zpow_right₀ (by norm_num) (by omega)
          _ = ((2 : ℚ) ^ (50 : ℕ))⁻¹ := by
                rw [show (-(50 : ℤ)) = -((50 : ℕ) : ℤ) by norm_num, two_zpow_neg]
        have hub : fround x ≤ 10 := by
          by_cases hx10 : x = 10
          · have hkey : x * (2 : ℚ) ^ ((52 : ℤ) - fexp x) =
                ((10 * 2 ^ ((52 : ℤ) - fexp x).toNat : ℤ) : ℚ) := by
              nth_rewrite 1 [hx10]
              exact_mod_cast int_mul_two_zpow_eq 10 ((52 : ℤ) - fexp x) (by omega)
            rw [fround_exact x _ hkey, hx10]
          · have hlt10 : x < 10 := lt_of_le_of_ne hle10 hx10
            have hgt : (likes : ℚ) < 10 * ((comments : ℚ) + 1) := by
              rw [hxdef] at hlt10
              exact (div_lt_iff hBpos).1 hlt10
            have hnat : likes < 10 * (comments + 1) := by
              have h : (likes : ℚ) < ((10 * (comments + 1) : ℕ) : ℚ) := by
                push_cast
                linarith
              exact_mod_cast h
            have hq : (likes : ℚ) + 1 ≤ 10 * ((comments : ℚ) + 1) := by
              have h1 : likes + 1 ≤ 10 * (comments + 1) := hnat
              have h2 := (Nat.cast_le (α := ℚ)).2 h1
              push_cast at h2
              linarith
            have hxgap : x ≤ 10 - ((comments : ℚ) + 1)⁻¹ := by
              rw [hxdef, div_le_iff hBpos]
              have hBne : ((comments : ℚ) + 1) ≠ 0 := ne_of_gt hBpos
              calc (likes : ℚ) ≤ 10 * ((comments : ℚ) + 1) - 1 := by linarith
              _ = (10 - ((comments : ℚ) + 1)⁻¹) * ((comments : ℚ) + 1) := by
                    field_simp
            have hnum : ((2 : ℚ) ^ (50 : ℕ))⁻¹ < ((2 : ℚ) ^ (49 : ℕ))⁻¹ := by norm_num
            linarith [hclose.2, hgap]
        have hlb : (1 : ℚ) ≤ fround x := by
          by_cases hx1b : x = 1
          · have hkey : x * (2 : ℚ) ^ ((52 : ℤ) - fexp x) =
                ((1 * 2 ^ ((52 : ℤ) - fexp x).toNat : ℤ) : ℚ) := by
              nth_rewrite 1 [hx1b]
              exact_mod_cast int_mul_two_zpow_eq 1 ((52 : ℤ) - fexp x) (by omega)
            rw [fround_exact x _ hkey, hx1b]
          · have hgt1 : 1 < x := lt_of_le_of_ne hge1 (Ne.symm hx1b)
            have hgt : ((comments : ℚ) + 1) < (likes : ℚ) := by
              rw [hxdef] at hgt1
              have h := (lt_div_iff hBpos).1 hgt1
              rw [one_mul] at h
              exact h
            have hnat : comments + 1 < likes := by
              have h : ((comments + 1 : ℕ) : ℚ) < (likes : ℚ) := by
                push_cast
                linarith
              exact_mod_cast h
            have hq : ((comments : ℚ) + 1) + 1 ≤ (likes : ℚ) := by
              have h1 : (comments + 1) + 1 ≤ likes := hnat
              have h2 := (Nat.cast_le (α := ℚ)).2 h1
              push_cast at h2
              linarith
            have hxgap : 1 + ((comments : ℚ) + 1)⁻¹ ≤ x := by
              rw [hxdef, le_div_iff hBpos]
              have hBne : ((comments : ℚ) + 1) ≠ 0 := ne_of_gt hBpos
              calc (1 + ((comments : ℚ) + 1)⁻¹) * ((comments : ℚ) + 1)
                  = ((comments : ℚ) + 1) + 1 := by field_simp
              _ ≤ (likes : ℚ) := hq
            have hnum : ((2 : ℚ) ^ (50 : ℕ))⁻¹ < ((2 : ℚ) ^ (49 : ℕ))⁻¹ := by norm_num
            linarith [hclose.1, hgap]
        have hngt : ¬(fround x > 10) := by linarith
        have hnlt : ¬(fround x < 1) := by linarith
        rw [hsim, if_neg hngt, if_neg hnlt]

theorem sentiment_spec_witness :
    simulate_sentiment_analysis 100 1 = some "Positive" := by
  refine ((sentiment_spec 100 1 (by norm_num) (by norm_num)).2 (by simp)).1 ?_
  norm_num

theorem try_request_go_success (call : String → CallResult) (k : String)
    (r : MockResponse) (pre post : List String)
    (hpre : ∀ k2 ∈ pre, resFailed (call k2) = true)
    (hk : call k = .ok r) (hs : r.status_code = 200) :
    ∀ lastr, try_request_go call (pre ++ k :: post) lastr = (some r, pre ++ [k]) := by
  induction pre with
  | nil =>
    intro lastr
    simp [try_request_go, hk, hs]
  | cons a as ih =>
    intro lastr
    have ha : resFailed (call a) = true := hpre a (by simp)
    have ih2 := ih (fun k2 hk2 => hpre k2 (by simp [hk2]))
    cases hca : call a with
    | ok ra =>
      have hne : ¬ra.status_code = 200 := by
        have := ha
        rw [hca] at this
        simpa [resFailed] using this
      simp [try_request_go, hca, hne, ih2]
    | exn m =>
      simp [try_request_go, hca, ih2]

theorem try_request_go_step_fail (call : String → CallResult) (a : String)
    (ks : List String) (lastr : Option MockResponse)
    (h : resFailed (call a) = true) :
    try_request_go call (a :: ks) lastr =
      ((try_request_go call ks (some (failDesc (call a)))).1,
       a :: (try_request_go call ks (some (failDesc (call a)))).2) := by
  cases hca : call a with
  | ok ra =>
    have hne : ¬ra.status_code = 200 := by
      have h2 := h
      rw [hca] at h2
      simpa [resFailed] using h2
    simp [try_request_go, hca, hne, failDesc]
  | exn m =>
    simp [try_request_go, hca, failDesc]

theorem try_request_go_allfail (call : String → CallResult) :
    ∀ (keys : List String) (k : String),
      (∀ k2 ∈ keys, resFailed (call k2) = true) →
      keys.getLast? = some k →
      ∀ lastr, try_request_go call keys lastr = (some (failDesc (call k)), keys) := by
  intro keys
  induction keys with
  | nil =>
    intro k _ hlast
    simp at hlast
  | cons a as ih =>
    intro k hfail hlast lastr
    have ha : resFailed (call a) = true := hfail a (by simp)
    rw [try_request_go_step_fail call a as lastr ha]
    cases as with
    | nil =>
      have hk : a = k := by simpa using hlast
      subst hk
      simp [try_request_go]
    | cons b bs =>
      have hlast2 : (b :: bs).getLast? = some k := by
        simpa [List.getLast?] using hlast
      have ih2 := ih k (fun k2 hk2 => hfail k2 (by simp [hk2])) hlast2
      rw [ih2 (some (failDesc (call a)))]

/-- C8: the credential rotator attempts the call once per credential in the
configured order; it returns the first response with status 200 immediately
(attempting exactly the preceding failing keys plus that one), and when all
credentials fail it returns the last-seen failure descriptor (the response,
or a synthesized 500 descriptor for a raised transport exception) after
attempting every key; in particular with 3 credentials answering 403, 403,
200 it makes exactly those 3 calls in order and returns the success. The
model is a total function, so no exception escapes the boundary. -/
theorem try_request_spec :
    (∀ (call : String → CallResult) (pre : List String) (k : String)
       (post : List String) (r : MockResponse),
       (∀ k2 ∈ pre, resFailed (call k2) = true) →
       call k = .ok r → r.status_code = 200 →
       try_request call (pre ++ k :: post) = (some r, pre ++ [k]))
    ∧ (∀ (call : String → CallResult) (keys : List String) (k : String),
       (∀ k2 ∈ keys, resFailed (call k2) = true) →
       keys.getLast? = some k →
       try_request call keys = (some (failDesc (call k)), keys))
    ∧ (∀ (call : String → CallResult) (k1 k2 k3 : String)
       (r1 r2 r3 : MockResponse),
       call k1 = .ok r1 → r1.status_code = 403 →
       call k2 = .ok r2 → r2.status_code = 403 →
       call k3 = .ok r3 → r3.status_code = 200 →
       try_request call [k1, k2, k3] = (some r3, [k1, k2, k3])) := by
  refine ⟨?_, ?_, ?_⟩
  · intro call pre k post r hpre hk hs
    exact try_request_go_success call k r pre post hpre hk hs none
  · intro call keys k hfail hlast
    exact try_request_go_allfail call keys k hfail hlast none
  · intro call k1 k2 k3 r1 r2 r3 h1 hs1 h2 hs2 h3 hs3
    have hpre : ∀ k2m ∈ [k1, k2], resFailed (call k2m) = true := by
      intro km hm
      simp only [List.mem_cons, List.not_mem_nil, or_false] at hm
      rcases hm with rfl | rfl
      · rw [h1]
        simp [resFailed, hs1]
      · rw [h2]
        simp [resFailed, hs2]
    have := try_request_go_success call k3 r3 [k1, k2] [] hpre h3 hs3 none
    simpa [try_request] using this

theorem try_request_spec_witness :
    try_request cexCall ["key1", "key2", "key3"] =
      (some { status_code := 200, reason := "OK", content := "body" },
       ["key1", "key2", "key3"]) := by
  refine try_request_spec.2.2 cexCall "key1" "key2" "key3"
    { status_code := 403, reason := "Forbidden", content := "quota" }
    { status_code := 403, reason := "Forbidden", content := "quota" }
    { status_code := 200, reason := "OK", content := "body" }
    ?_ rfl ?_ rfl ?_ rfl
  · simp [cexCall]
  · simp [cexCall]
  · simp [cexCall]

theorem tagItems_length (q : String) :
    ∀ (items : List (Option String)), (∀ o ∈ items, o.isSome = true) →
    (tagItems q items).length = items.length := by
  intro items
  induction items with
  | nil =>
    intro _
    rfl
  | cons a as ih =>
    intro h
    cases a with
    | none =>
      have h2 := h none (by simp)
      simp at h2
    | some v =>
      have ih2 : (tagItems q as).length = as.length :=
        ih (fun o ho => h o (by simp [ho]))
      simp only [tagItems, List.filterMap_cons, Option.map_some',
        List.length_cons] at ih2 ⊢
      omega

theorem tagItems_kw (q : String) (items : List (Option String)) :
    ∀ tg ∈ tagItems q items, tg.sourceKeyword = q := by
  intro tg htg
  simp only [tagItems, List.mem_filterMap] at htg
  obtain ⟨o, _, heq⟩ := htg
  cases o with
  | none => simp at heq
  | some v =>
    simp only [Option.map_some'] at heq
    cases heq
    rfl

/-- C9: the search loop stops and returns the accumulated tagged ids as soon
as a page fails, as soon as a page carries no next-page token, or as soon as
the accumulated count has reached the page-size parameter (50 by default);
otherwise it follows the returned token into the next call. In particular a
single page of 10 items with no next token terminates after exactly one call
and yields the 10 ids tagged with the originating query. -/
theorem youtube_search_spec :
    (∀ (call : Option String → SearchResp) (q : String) (maxRes fuel : Nat)
       (tok : Option String) (acc : List Tagged) (s : Int),
       call tok = .fail s →
       youtube_search_go call q maxRes (fuel + 1) tok acc = some (acc, 1))
    ∧ (∀ (call : Option String → SearchResp) (q : String) (maxRes fuel : Nat)
       (tok : Option String) (acc : List Tagged) (items : List (Option String)),
       call tok = .page items none →
       youtube_search_go call q maxRes (fuel + 1) tok acc =
         some (acc ++ tagItems q items, 1))
    ∧ (∀ (call : Option String → SearchResp) (q : String) (maxRes fuel : Nat)
       (tok : Option String) (acc : List Tagged) (items : List (Option String))
       (nt : String),
       call tok = .page items (some nt) →
       maxRes ≤ (acc ++ tagItems q items).length →
       youtube_search_go call q maxRes (fuel + 1) tok acc =
         some (acc ++ tagItems q items, 1))
    ∧ (∀ (call : Option String → SearchResp) (q : String) (maxRes fuel : Nat)
       (tok : Option String) (acc : List Tagged) (items : List (Option String))
       (nt : String),
       call tok = .page items (some nt) →
       (acc ++ tagItems q items).length < maxRes →
       youtube_search_go call q maxRes (fuel + 1) tok acc =
         (youtube_search_go call q maxRes fuel (some nt)
            (acc ++ tagItems q items)).map (fun p => (p.1, p.2 + 1)))
    ∧ (∀ (call : Option String → SearchResp) (q : String) (fuel : Nat)
       (items : List (Option String)),
       call none = .page items none →
       items.length = 10 →
       (∀ o ∈ items, o.isSome = true) →
       youtube_search call q 50 (fuel + 1) = some (tagItems q items, 1)
       ∧ (tagItems q items).length = 10
       ∧ ∀ tg ∈ tagItems q items, tg.sourceKeyword = q) := by
  refine ⟨?_, ?_, ?_, ?_, ?_⟩
  · intro call q maxRes fuel tok acc s h
    simp [youtube_search_go, h]
  · intro call q maxRes fuel tok acc items h
    simp [youtube_search_go, h]
  · intro call q maxRes fuel tok acc items nt h hlen
    simp only [youtube_search_go, h]
    rw [if_pos hlen]
  · intro call q maxRes fuel tok acc items nt h hlen
    have hnot : ¬maxRes ≤ (acc ++ tagItems q items).length := by omega
    simp only [youtube_search_go, h]
    rw [if_neg hnot]
    cases youtube_search_go call q maxRes fuel (some nt) (acc ++ tagItems q items) with
    | none => rfl
    | some p => rfl
  · intro call q fuel items h hlen hsome
    refine ⟨?_, ?_, tagItems_kw q items⟩
    · simp [youtube_search, youtube_search_go, h]
    · rw [tagItems_length q items hsome, hlen]

theorem youtube_search_spec_witness :
    youtube_search cexApi "cisf" 50 3 = some (tagItems "cisf" cexItems, 1)
    ∧ (tagItems "cisf" cexItems).length = 10
    ∧ ∀ tg ∈ tagItems "cisf" cexItems, tg.sourceKeyword = "cisf" :=
  youtube_search_spec.2.2.2.2 cexApi "cisf" 2 cexItems rfl (by decide) (by decide)

theorem takeDigits_append (ds rest : List Char)
    (hds : ∀ c ∈ ds, pyIsDigit c = true)
    (hrest : ∀ c cs2, rest = c :: cs2 → pyIsDigit c = false) :
    takeDigits (ds ++ rest) = (ds, rest) := by
  induction ds with
  | nil =>
    cases rest with
    | nil => rfl
    | cons c cs2 =>
      simp [takeDigits, hrest c cs2 rfl]
  | cons a as ih =>
    have ha : pyIsDigit a = true := hds a (by simp)
    have ih2 := ih (fun c hc => hds c (by simp [hc]))
    simp [takeDigits, ha, ih2]

theorem matchComponent_of_group (letter : Char) (ds rest : List Char)
    (hne : ds ≠ []) (hds : ∀ c ∈ ds, pyIsDigit c = true)
    (hl : pyIsDigit letter = false) :
    matchComponent letter (ds ++ letter :: rest) = (some ds, rest) := by
  have htd : takeDigits (ds ++ letter :: rest) = (ds, letter :: rest) :=
    takeDigits_append ds (letter :: rest) hds
      (by intro c cs2 h; cases h; exact hl)
  cases ds with
  | nil => exact absurd rfl hne
  | cons a as =>
    simp only [List.cons_append] at htd
    simp [matchComponent, htd]

theorem matchComponent_not_letter (letter : Char) (ds : List Char) (c : Char)
    (rest : List Char) (hds : ∀ x ∈ ds, pyIsDigit x = true)
    (hc : pyIsDigit c = false) (hne : c ≠ letter) :
    matchComponent letter (ds ++ c :: rest) = (none, ds ++ c :: rest) := by
  have htd : takeDigits (ds ++ c :: rest) = (ds, c :: rest) :=
    takeDigits_append ds (c :: rest) hds
      (by intro x xs h; cases h; exact hc)
  cases ds with
  | nil =>
    simp only [List.nil_append] at htd
    simp [matchComponent, htd]
  | cons a as =>
    simp only [List.cons_append] at htd
    simp [matchComponent, htd, hne]

theorem matchComponent_nil (letter : Char) :
    matchComponent letter [] = (none, []) := rfl

theorem digitsOk_spec (ds : List Char) (h : digitsOk ds = true) :
    ds ≠ [] ∧ ∀ c ∈ ds, pyIsDigit c = true := by
  cases ds with
  | nil => simp [digitsOk] at h
  | cons a as =>
    refine ⟨by simp, ?_⟩
    simp only [digitsOk, Bool.and_eq_true, List.all_eq_true] at h
    exact h.2

theorem matchDuration_mk (body : List Char) :
    matchDuration (String.mk ('P' :: 'T' :: body)) =
      (if (matchComponent 'S' (matchComponent 'M'
            (matchComponent 'H' body).2).2).2 = [] ∨
          (matchComponent 'S' (matchComponent 'M'
            (matchComponent 'H' body).2).2).2 = ['\n'] then
         some ((matchComponent 'H' body).1.map digitsToNat,
               (matchComponent 'M' (matchComponent 'H' body).2).1.map digitsToNat,
               (matchComponent 'S' (matchComponent 'M'
                  (matchComponent 'H' body).2).2).1.map digitsToNat)
       else none) := rfl

theorem matchComp_S (gs : Option (List Char)) (nl : Bool)
    (h : groupOk gs = true) :
    matchComponent 'S' (compChars gs 'S' ++ nlChars nl) = (gs, nlChars nl) := by
  cases gs with
  | none =>
    cases nl
    · rfl
    · rfl
  | some ds =>
    obtain ⟨hne, hds⟩ := digitsOk_spec ds h
    have := matchComponent_of_group 'S' ds (nlChars nl) hne hds (by decide)
    simpa [compChars, List.append_assoc] using this

theorem matchComp_M (gm gs : Option (List Char)) (nl : Bool)
    (h2 : groupOk gm = true) (h3 : groupOk gs = true) :
    matchComponent 'M'
        (compChars gm 'M' ++ (compChars gs 'S' ++ nlChars nl)) =
      (gm, compChars gs 'S' ++ nlChars nl) := by
  cases gm with
  | some dm =>
    obtain ⟨hne, hds⟩ := digitsOk_spec dm h2
    have := matchComponent_of_group 'M'
      dm (compChars gs 'S' ++ nlChars nl) hne hds (by decide)
    simpa [compChars, List.append_assoc] using this
  | none =>
    cases gs with
    | none =>
      cases nl
      · rfl
      · rfl
    | some ds =>
      obtain ⟨hne, hds⟩ := digitsOk_spec ds h3
      have := matchComponent_not_letter 'M'
        ds 'S' (nlChars nl) hds (by decide) (by decide)
      simpa [compChars, List.append_assoc] using this

theorem matchComp_H (gh gm gs : Option (List Char)) (nl : Bool)
    (h1 : groupOk gh = true) (h2 : groupOk gm = true) (h3 : groupOk gs = true) :
    matchComponent 'H'
        (compChars gh 'H' ++
          (compChars gm 'M' ++ (compChars gs 'S' ++ nlChars nl))) =
      (gh, compChars gm 'M' ++ (compChars gs 'S' ++ nlChars nl)) := by
  cases gh with
  | some dh =>
    obtain ⟨hne, hds⟩ := digitsOk_spec dh h1
    have := matchComponent_of_group 'H'
      dh (compChars gm 'M' ++ (compChars gs 'S' ++ nlChars nl)) hne hds
      (by decide)
    simpa [compChars, List.append_assoc] using this
  | none =>
    cases gm with
    | some dm =>
      obtain ⟨hne, hds⟩ := digitsOk_spec dm h2
      have := matchComponent_not_letter 'H'
        dm 'M' (compChars gs 'S' ++ nlChars nl) hds (by decide) (by decide)
      simpa [compChars, List.append_assoc] using this
    | none =>
      cases gs with
      | none =>
        cases nl
        · rfl
        · rfl
      | some ds =>
        obtain ⟨hne, hds⟩ := digitsOk_spec ds h3
        have := matchComponent_not_letter 'H'
          ds 'S' (nlChars nl) hds (by decide) (by decide)
        simpa [compChars, List.append_assoc] using this

theorem matchDuration_render (gh gm gs : Option (List Char)) (nl : Bool)
    (h1 : groupOk gh = true) (h2 : groupOk gm = true) (h3 : groupOk gs = true) :
    matchDuration (renderDuration gh gm gs nl) =
      some (gh.map digitsToNat, gm.map digitsToNat, gs.map digitsToNat) := by
  have hH := matchComp_H gh gm gs nl h1 h2 h3
  have hM := matchComp_M gm gs nl h2 h3
  have hS := matchComp_S gs nl h3
  rw [renderDuration, List.append_assoc, List.append_assoc, matchDuration_mk]
  rw [hH]
  simp only []
  rw [hM, hS]
  cases nl <;> simp [nlChars]

theorem takeDigits_decomp : ∀ (cs ds rest : List Char),
    takeDigits cs = (ds, rest) →
    cs = ds ++ rest ∧ ∀ c ∈ ds, pyIsDigit c = true := by
  intro cs
  induction cs with
  | nil =>
    intro ds rest h
    simp only [takeDigits, Prod.mk.injEq] at h
    obtain ⟨h1, h2⟩ := h
    subst h1
    subst h2
    simp
  | cons c cs2 ih =>
    intro ds rest h
    by_cases hc : pyIsDigit c = true
    · rcases hp : takeDigits cs2 with ⟨p1, p2⟩
      simp only [takeDigits, hc, if_true, hp, Prod.mk.injEq] at h
      obtain ⟨h1, h2⟩ := h
      subst h1
      subst h2
      obtain ⟨hcs, hdig⟩ := ih p1 p2 hp
      constructor
      · simp [hcs]
      · intro x hx
        rcases List.mem_cons.1 hx with rfl | hx2
        · exact hc
        · exact hdig x hx2
    · simp only [takeDigits, hc, if_false, Bool.false_eq_true, Prod.mk.injEq] at h
      obtain ⟨h1, h2⟩ := h
      subst h1
      subst h2
      simp

theorem matchComponent_decomp (letter : Char) (cs : List Char)
    (g : Option (List Char)) (rest2 : List Char)
    (h : matchComponent letter cs = (g, rest2)) :
    (g = none ∧ rest2 = cs) ∨
    (∃ ds, g = some ds ∧ digitsOk ds = true ∧ cs = ds ++ letter :: rest2) := by
  rcases hp : takeDigits cs with ⟨p1, p2⟩
  obtain ⟨hcs, hdig⟩ := takeDigits_decomp cs p1 p2 hp
  simp only [matchComponent, hp] at h
  cases p1 with
  | nil =>
    simp only [Prod.mk.injEq] at h
    exact Or.inl ⟨h.1.symm, h.2.symm⟩
  | cons d ds2 =>
    cases p2 with
    | nil =>
      simp only [Prod.mk.injEq] at h
      exact Or.inl ⟨h.1.symm, h.2.symm⟩
    | cons r rest3 =>
      dsimp only at h
      by_cases hr : r = letter
      · rw [if_pos hr] at h
        have h1 : g = some (d :: ds2) := (congrArg Prod.fst h).symm
        have h2 : rest2 = rest3 := (congrArg Prod.snd h).symm
        refine Or.inr ⟨d :: ds2, h1, ?_, ?_⟩
        · simp only [digitsOk, List.isEmpty_cons, Bool.not_false,
            Bool.true_and, List.all_eq_true]
          exact hdig
        · rw [hcs, hr, h2]
      · simp only [if_neg hr, Prod.mk.injEq] at h
        exact Or.inl ⟨h.1.symm, h.2.symm⟩

theorem matchDuration_sound (s : String) (v : Option Nat × Option Nat × Option Nat)
    (h : matchDuration s = some v) :
    ∃ gh gm gs nl, groupOk gh = true ∧ groupOk gm = true ∧ groupOk gs = true ∧
      s = renderDuration gh gm gs nl := by
  unfold matchDuration at h
  split at h
  case h_2 => exact absurd h (by simp)
  case h_1 body heq =>
    rcases hH : matchComponent 'H' body with ⟨gh, r1⟩
    rcases hM : matchComponent 'M' r1 with ⟨gm, r2⟩
    rcases hS : matchComponent 'S' r2 with ⟨gs, r3⟩
    simp only [hH, hM, hS] at h
    by_cases hr3 : r3 = [] ∨ r3 = ['\n']
    · obtain ⟨nl, hnl⟩ : ∃ nl, r3 = nlChars nl := by
        rcases hr3 with h3 | h3
        · exact ⟨false, h3⟩
        · exact ⟨true, h3⟩
      have hd1 := matchComponent_decomp 'H' body gh r1 hH
      have hd2 := matchComponent_decomp 'M' r1 gm r2 hM
      have hd3 := matchComponent_decomp 'S' r2 gs r3 hS
      have hok1 : groupOk gh = true := by
        rcases hd1 with ⟨rfl, _⟩ | ⟨ds, rfl, hok, _⟩
        · rfl
        · exact hok
      have hok2 : groupOk gm = true := by
        rcases hd2 with ⟨rfl, _⟩ | ⟨ds, rfl, hok, _⟩
        · rfl
        · exact hok
      have hok3 : groupOk gs = true := by
        rcases hd3 with ⟨rfl, _⟩ | ⟨ds, rfl, hok, _⟩
        · rfl
        · exact hok
      have hb3 : r2 = compChars gs 'S' ++ nlChars nl := by
        rcases hd3 with ⟨rfl, h2⟩ | ⟨ds, rfl, _, h2⟩
        · rw [show compChars (none : Option (List Char)) 'S' = [] from rfl,
            List.nil_append, ← hnl]
          exact h2.symm
        · rw [h2, hnl]
          simp [compChars]
      have hb2 : r1 = compChars gm 'M' ++ (compChars gs 'S' ++ nlChars nl) := by
        rcases hd2 with ⟨rfl, h2⟩ | ⟨ds, rfl, _, h2⟩
        · rw [show compChars (none : Option (List Char)) 'M' = [] from rfl,
            List.nil_append, ← hb3]
          exact h2.symm
        · rw [h2, hb3]
          simp [compChars]
      have hb1 : body = compChars gh 'H' ++
          (compChars gm 'M' ++ (compChars gs 'S' ++ nlChars nl)) := by
        rcases hd1 with ⟨rfl, h2⟩ | ⟨ds, rfl, _, h2⟩
        · rw [show compChars (none : Option (List Char)) 'H' = [] from rfl,
            List.nil_append, ← hb2]
          exact h2.symm
        · rw [h2, hb2]
          simp [compChars]
      refine ⟨gh, gm, gs, nl, hok1, hok2, hok3, ?_⟩
      have hs2 : s = String.mk s.data := by
        cases s
        rfl
      rw [hs2, heq, hb1]
      simp [renderDuration, List.append_assoc]
    · rw [if_neg hr3] at h
      exact absurd h (by simp)

theorem compChars_mem (g : Option (List Char)) (letter c : Char)
    (hg : groupOk g = true) (hc : c ∈ compChars g letter) :
    pyIsDigit c = true ∨ c = letter := by
  cases g with
  | none => simp [compChars] at hc
  | some ds =>
    simp only [compChars, List.mem_append, List.mem_singleton] at hc
    rcases hc with hc | rfl
    · obtain ⟨_, hds⟩ := digitsOk_spec ds hg
      exact Or.inl (hds c hc)
    · exact Or.inr rfl

/-- C5 counterexample to the original claim: the string PT1H followed by a
newline lies outside the newline-free grammar PT[nH][nM][nS], yet the
program parses it to 3600, because the anchor $ of Python's re also
matches just before one trailing newline. -/
theorem parse_duration_newline_cex :
    parse_duration_iso8601 (String.mk ['P', 'T', '1', 'H', '\n']) = 3600
    ∧ ¬∃ gh gm gs, groupOk gh = true ∧ groupOk gm = true ∧
        groupOk gs = true ∧
        String.mk ['P', 'T', '1', 'H', '\n'] =
          renderDuration gh gm gs false := by
  constructor
  · decide
  · rintro ⟨gh, gm, gs, h1, h2, h3, heq⟩
    have hdata : (['P', 'T', '1', 'H', '\n'] : List Char) =
        'P' :: 'T' :: (compChars gh 'H' ++ compChars gm 'M' ++
          compChars gs 'S' ++ nlChars false) := congrArg String.data heq
    have hmem0 : '\n' ∈ (['P', 'T', '1', 'H', '\n'] : List Char) := by simp
    rw [hdata] at hmem0
    rcases List.mem_cons.1 hmem0 with hP | hmem1
    · exact absurd hP (by decide)
    rcases List.mem_cons.1 hmem1 with hT | hmem2
    · exact absurd hT (by decide)
    rcases List.mem_append.1 hmem2 with hmem3 | hmnl
    swap
    · simp [nlChars] at hmnl
    rcases List.mem_append.1 hmem3 with hmem4 | hmS
    swap
    · rcases compChars_mem gs 'S' '\n' h3 hmS with hd | hl
      · exact absurd hd (by decide)
      · exact absurd hl (by decide)
    rcases List.mem_append.1 hmem4 with hmH | hmM
    · rcases compChars_mem gh 'H' '\n' h1 hmH with hd | hl
      · exact absurd hd (by decide)
      · exact absurd hl (by decide)
    · rcases compChars_mem gm 'M' '\n' h2 hmM with hd | hl
      · exact absurd hd (by decide)
      · exact absurd hl (by decide)

/-- C5 (amended): parse_duration_iso8601 maps every string of the grammar
PT[nH][nM][nS] — each component an optional nonempty group of Unicode
decimal digits, the whole optionally followed by one newline, which the
anchor $ of Python's re accepts — to 3600*h + 60*m + s, absent components
counting as 0, and maps every string outside this extended grammar to 0;
being a total function, it never raises. -/
theorem parse_duration_spec :
    (∀ (gh gm gs : Option (List Char)) (nl : Bool),
       groupOk gh = true → groupOk gm = true → groupOk gs = true →
       parse_duration_iso8601 (renderDuration gh gm gs nl) =
         3600 * groupVal gh + 60 * groupVal gm + groupVal gs)
    ∧ (∀ s : String,
       (¬∃ gh gm gs nl, groupOk gh = true ∧ groupOk gm = true ∧
          groupOk gs = true ∧ s = renderDuration gh gm gs nl) →
       parse_duration_iso8601 s = 0) := by
  constructor
  · intro gh gm gs nl h1 h2 h3
    simp only [parse_duration_iso8601,
      matchDuration_render gh gm gs nl h1 h2 h3]
    cases gh <;> cases gm <;> cases gs <;> simp [groupVal] <;> ring
  · intro s hno
    cases hm : matchDuration s with
    | none => simp [parse_duration_iso8601, hm]
    | some v => exact absurd (matchDuration_sound s v hm) hno

theorem parse_duration_spec_witness :
    parse_duration_iso8601
        (renderDuration (some ['1']) (some ['2']) (some ['3']) false) =
      3723 := by
  rw [parse_duration_spec.1 (some ['1']) (some ['2']) (some ['3']) false
    (by decide) (by decide) (by decide)]
  decide

theorem updFun_videoId (now : PyDateTime) (r : Rec) (row : Row) :
    (updFun now r row).videoId = row.videoId := by
  unfold updFun updateRow
  split <;> rfl

theorem updFun_projSF (now : PyDateTime) (r : Rec) (row : Row) :
    projSF (updFun now r row) = projSF row := by
  unfold updFun updateRow projSF
  split <;> rfl

theorem findRow_cons (a : Row) (t : List Row) (vid : String) :
    findRow (a :: t) vid = if a.videoId = vid then some a else findRow t vid := by
  by_cases h : a.videoId = vid
  · simp [findRow, List.find?_cons, h]
  · simp [findRow, List.find?_cons, h]

theorem findRow_map (g : Row → Row) (hg : ∀ row, (g row).videoId = row.videoId) :
    ∀ (t : List Row) (vid : String), findRow (t.map g) vid = (findRow t vid).map g := by
  intro t
  induction t with
  | nil => intro vid; rfl
  | cons a as ih =>
    intro vid
    by_cases h : a.videoId = vid
    · rw [List.map_cons, findRow_cons, findRow_cons]
      rw [hg a]
      rw [if_pos h, if_pos h]
      rfl
    · rw [List.map_cons, findRow_cons, findRow_cons]
      rw [hg a]
      rw [if_neg h, if_neg h]
      exact ih vid

theorem rowIds_map (g : Row → Row) (hg : ∀ row, (g row).videoId = row.videoId)
    (t : List Row) : rowIds (t.map g) = rowIds t := by
  simp only [rowIds, List.map_map]
  exact List.map_congr_left (fun row _ => hg row)

theorem mem_rowIds_iff (t : List Row) (vid : String) :
    vid ∈ rowIds t ↔ ∃ row, findRow t vid = some row := by
  induction t with
  | nil => simp [rowIds, findRow]
  | cons a as ih =>
    by_cases h : a.videoId = vid
    · simp [rowIds, findRow_cons, h]
    · have hne : ¬vid = a.videoId := fun hx => h hx.symm
      simp only [rowIds, List.map_cons, List.mem_cons, findRow_cons, if_neg h]
      rw [← rowIds]
      simp [hne, ih]

theorem findRow_videoId (t : List Row) (vid : String) (row : Row)
    (h : findRow t vid = some row) : row.videoId = vid := by
  have h2 := List.find?_some h
  simpa using h2

theorem findRow_mem (t : List Row) (vid : String) (row : Row)
    (h : findRow t vid = some row) : row ∈ t :=
  List.mem_of_find?_eq_some h

theorem findRow_none (t : List Row) (vid : String) (h : vid ∉ rowIds t) :
    findRow t vid = none := by
  cases hf : findRow t vid with
  | none => rfl
  | some row => exact absurd ((mem_rowIds_iff t vid).2 ⟨row, hf⟩) h

theorem findRow_append_left (t1 t2 : List Row) (vid : String) (row : Row)
    (h : findRow t1 vid = some row) : findRow (t1 ++ t2) vid = some row := by
  induction t1 with
  | nil => simp [findRow] at h
  | cons a as ih =>
    rw [List.cons_append, findRow_cons]
    rw [findRow_cons] at h
    by_cases ha : a.videoId = vid
    · rw [if_pos ha] at h ⊢
      exact h
    · rw [if_neg ha] at h ⊢
      exact ih h

theorem findRow_append_right (t1 t2 : List Row) (vid : String)
    (h : vid ∉ rowIds t1) : findRow (t1 ++ t2) vid = findRow t2 vid := by
  induction t1 with
  | nil => rfl
  | cons a as ih =>
    have ha : a.videoId ≠ vid := by
      intro hx
      exact h (by simp [rowIds, hx])
    rw [List.cons_append, findRow_cons, if_neg ha]
    exact ih (fun hx => h (by simp [rowIds] at hx ⊢; exact Or.inr hx))

theorem upsert_one_cases (now : PyDateTime) (existing : List String)
    (t : List Row) (r : Rec) (t2 : List Row)
    (h : upsert_one now existing t r = .ok t2) :
    (r.videoId ∈ existing ∧ t2 = t.map (updFun now r)) ∨
    (r.videoId ∉ existing ∧ r.videoId ∉ rowIds t ∧
      t2 = t ++ [insertRow now r (maxSerial t + 1)]) := by
  unfold upsert_one at h
  by_cases h1 : r.videoId ∈ existing
  · rw [if_pos h1] at h
    exact Or.inl ⟨h1, (Except.ok.inj h).symm⟩
  · rw [if_neg h1] at h
    by_cases h2 : r.videoId ∈ rowIds t
    · rw [if_pos h2] at h
      cases h
    · rw [if_neg h2] at h
      exact Or.inr ⟨h1, h2, (Except.ok.inj h).symm⟩

theorem upsert_one_preserves (now : PyDateTime) (existing : List String)
    (t : List Row) (r : Rec) (t2 : List Row)
    (h : upsert_one now existing t r = .ok t2) (vid : String)
    (hv : vid ∈ rowIds t) :
    (findRow t2 vid).map projSF = (findRow t vid).map projSF
    ∧ vid ∈ rowIds t2 := by
  rcases upsert_one_cases now existing t r t2 h with ⟨_, rfl⟩ | ⟨_, hni, rfl⟩
  · constructor
    · rw [findRow_map (updFun now r) (updFun_videoId now r)]
      cases hf : findRow t vid with
      | none => rfl
      | some row => simp [updFun_projSF]
    · rw [rowIds_map (updFun now r) (updFun_videoId now r)]
      exact hv
  · obtain ⟨row, hrow⟩ := (mem_rowIds_iff t vid).1 hv
    constructor
    · rw [findRow_append_left t _ vid row hrow, hrow]
    · simp only [rowIds, List.map_append]
      exact List.mem_append_left _ hv

theorem db_upsert_go_preserves (now : PyDateTime) (existing : List String) :
    ∀ (rs : List Rec) (t t2 : List Row),
      db_upsert_go now existing t rs = .ok t2 →
      ∀ vid ∈ rowIds t,
        (findRow t2 vid).map projSF = (findRow t vid).map projSF := by
  intro rs
  induction rs with
  | nil =>
    intro t t2 h vid hv
    cases h
    rfl
  | cons r rs ih =>
    intro t t2 h vid hv
    unfold db_upsert_go at h
    cases hstep : upsert_one now existing t r with
    | error e =>
      rw [hstep] at h
      cases h
    | ok tmid =>
      rw [hstep] at h
      obtain ⟨hpres, hmem⟩ := upsert_one_preserves now existing t r tmid hstep vid hv
      rw [ih tmid t2 h vid hmem, hpres]

theorem existingIds_sub (t : List Row) (rs : List Rec) (vid : String)
    (h : vid ∈ existingIds t rs) : vid ∈ rowIds t :=
  (List.mem_filter.1 h).1

theorem db_upsert_go_cons_ok (now : PyDateTime) (existing : List String)
    (t : List Row) (r : Rec) (rs : List Rec) (tmid : List Row)
    (h : upsert_one now existing t r = .ok tmid) :
    db_upsert_go now existing t (r :: rs) = db_upsert_go now existing tmid rs := by
  unfold db_upsert_go
  rw [h]
  cases rs <;> rfl

/-- C1: a record whose videoId is not in the store is inserted with serial
equal to the maximum serial existing at the moment of its insert plus 1
(stated for the head of a batch against the initial store, and for an
arbitrary loop step against the current store), and an upsert never changes
the serial or firstSeenSource of any row already present (the UPDATE does
not touch those columns), so serial is assigned exactly once. -/
theorem upsert_serial_spec :
    (∀ (now : PyDateTime) (t : List Row) (r : Rec) (rs : List Rec)
       (t2 : List Row),
       r.videoId ∉ rowIds t →
       db_upsert_videos now t (r :: rs) = .ok t2 →
       ∃ row, findRow t2 r.videoId = some row ∧ row.serial = maxSerial t + 1)
    ∧ (∀ (now : PyDateTime) (existing : List String) (t : List Row) (r : Rec)
       (t2 : List Row),
       r.videoId ∉ existing → r.videoId ∉ rowIds t →
       upsert_one now existing t r = .ok t2 →
       ∃ row, findRow t2 r.videoId = some row ∧ row.serial = maxSerial t + 1)
    ∧ (∀ (now : PyDateTime) (t : List Row) (rs : List Rec) (t2 : List Row),
       db_upsert_videos now t rs = .ok t2 →
       ∀ vid ∈ rowIds t,
         (findRow t2 vid).map projSF = (findRow t vid).map projSF) := by
  refine ⟨?_, ?_, ?_⟩
  · intro now t r rs t2 hni h
    unfold db_upsert_videos at h
    have hne : r.videoId ∉ existingIds t (r :: rs) :=
      fun hx => hni (existingIds_sub t (r :: rs) r.videoId hx)
    have hstep : upsert_one now (existingIds t (r :: rs)) t r =
        .ok (t ++ [insertRow now r (maxSerial t + 1)]) := by
      unfold upsert_one
      rw [if_neg hne, if_neg hni]
    rw [db_upsert_go_cons_ok now (existingIds t (r :: rs)) t r rs _ hstep] at h
    have hmid : findRow (t ++ [insertRow now r (maxSerial t + 1)]) r.videoId =
        some (insertRow now r (maxSerial t + 1)) := by
      rw [findRow_append_right t _ r.videoId hni, findRow_cons,
        if_pos (show (insertRow now r (maxSerial t + 1)).videoId = r.videoId
          from rfl)]
    have hmem : r.videoId ∈ rowIds (t ++ [insertRow now r (maxSerial t + 1)]) :=
      (mem_rowIds_iff _ _).2 ⟨_, hmid⟩
    have hpres := db_upsert_go_preserves now (existingIds t (r :: rs)) rs
      (t ++ [insertRow now r (maxSerial t + 1)]) t2 h r.videoId hmem
    rw [hmid] at hpres
    cases hf : findRow t2 r.videoId with
    | none =>
      rw [hf] at hpres
      cases hpres
    | some row =>
      rw [hf] at hpres
      refine ⟨row, rfl, ?_⟩
      have : projSF row = projSF (insertRow now r (maxSerial t + 1)) := by
        simpa using hpres
      have hser := congrArg Prod.fst this
      simpa [projSF, insertRow] using hser
  · intro now existing t r t2 hne hni h
    rcases upsert_one_cases now existing t r t2 h with ⟨hin, _⟩ | ⟨_, _, rfl⟩
    · exact absurd hin hne
    · refine ⟨insertRow now r (maxSerial t + 1), ?_, rfl⟩
      rw [findRow_append_right t _ r.videoId hni, findRow_cons,
        if_pos (show (insertRow now r (maxSerial t + 1)).videoId = r.videoId
          from rfl)]
  · intro now t rs t2 h vid hv
    exact db_upsert_go_preserves now (existingIds t rs) rs t t2 h vid hv

theorem upsert_serial_spec_witness :
    ∃ row, findRow [insertRow now0 (mkRec "A") 1] "A" = some row
      ∧ row.serial = maxSerial ([] : List Row) + 1 := by
  have h := upsert_serial_spec.1 now0 [] (mkRec "A") []
    [insertRow now0 (mkRec "A") 1] (by simp [rowIds]) rfl
  simpa [mkRec] using h

theorem updFun_kw_of_some (now : PyDateTime) (r : Rec) (row : Row) (k : String)
    (h : row.sourceKeyword = some k) :
    (updFun now r row).sourceKeyword = some k := by
  unfold updFun updateRow
  split
  · simp [h]
  · exact h

theorem upsert_one_kw (now : PyDateTime) (existing : List String)
    (t : List Row) (r : Rec) (t2 : List Row)
    (h : upsert_one now existing t r = .ok t2) (vid : String) (k : String)
    (hf : (findRow t vid).map (fun row => row.sourceKeyword) = some (some k)) :
    (findRow t2 vid).map (fun row => row.sourceKeyword) = some (some k) := by
  cases hrow : findRow t vid with
  | none =>
    rw [hrow] at hf
    cases hf
  | some row =>
    rw [hrow] at hf
    have hk : row.sourceKeyword = some k := by simpa using hf
    rcases upsert_one_cases now existing t r t2 h with ⟨_, rfl⟩ | ⟨_, _, rfl⟩
    · rw [findRow_map (updFun now r) (updFun_videoId now r), hrow]
      simp [updFun_kw_of_some now r row k hk]
    · rw [findRow_append_left t _ vid row hrow]
      simpa using hf

theorem db_upsert_go_kw (now : PyDateTime) (existing : List String) :
    ∀ (rs : List Rec) (t t2 : List Row),
      db_upsert_go now existing t rs = .ok t2 →
      ∀ (vid k : String),
        (findRow t vid).map (fun row => row.sourceKeyword) = some (some k) →
        (findRow t2 vid).map (fun row => row.sourceKeyword) = some (some k) := by
  intro rs
  induction rs with
  | nil =>
    intro t t2 h vid k hf
    cases h
    exact hf
  | cons r rs ih =>
    intro t t2 h vid k hf
    cases hstep : upsert_one now existing t r with
    | error e =>
      rw [db_upsert_go, hstep] at h
      cases h
    | ok tmid =>
      rw [db_upsert_go_cons_ok now existing t r rs tmid hstep] at h
      exact ih tmid t2 h vid k
        (upsert_one_kw now existing t r tmid hstep vid k hf)

/-- C2: upserting records whose incoming sourceKeyword is null or absent
never erases a previously recorded keyword: COALESCE(sourceKeyword, new)
keeps the stored non-null value, so the stored keyword is unchanged. -/
theorem upsert_sourceKeyword_coalesce (now : PyDateTime) (t : List Row)
    (rs : List Rec) (t2 : List Row) (vid k : String)
    (h : db_upsert_videos now t rs = .ok t2)
    (_hnull : ∀ r ∈ rs, r.videoId = vid → r.kw = none)
    (hf : (findRow t vid).map (fun row => row.sourceKeyword) = some (some k)) :
    (findRow t2 vid).map (fun row => row.sourceKeyword) = some (some k) :=
  db_upsert_go_kw now (existingIds t rs) rs t t2 h vid k hf

theorem upsert_sourceKeyword_coalesce_witness :
    (findRow [updFun now0 recC2 rowC2] "A").map
      (fun row => row.sourceKeyword) = some (some "cisf") := by
  have h := upsert_sourceKeyword_coalesce now0 [rowC2] [recC2]
    [updFun now0 recC2 rowC2] "A" "cisf" rfl
    (by
      intro r hr _
      simp only [List.mem_singleton] at hr
      subst hr
      rfl)
    (by rfl)
  exact h

theorem db_upsert_go_dup_fails (now : PyDateTime) (existing : List String) :
    ∀ (rs : List Rec) (t : List Row) (vid : String),
      vid ∉ existing →
      ((vid ∈ rowIds t ∧ 1 ≤ recCount vid rs) ∨ 2 ≤ recCount vid rs) →
      upsertOk (db_upsert_go now existing t rs) = false := by
  intro rs
  induction rs with
  | nil =>
    intro t vid _ hcond
    rcases hcond with ⟨_, hc⟩ | hc <;> simp [recCount] at hc
  | cons r rs ih =>
    intro t vid hnex hcond
    by_cases hre : r.videoId ∈ existing
    · have hvr : r.videoId ≠ vid := fun hx => hnex (hx ▸ hre)
      have hstep : upsert_one now existing t r = .ok (t.map (updFun now r)) := by
        unfold upsert_one
        rw [if_pos hre]
      rw [db_upsert_go_cons_ok now existing t r rs _ hstep]
      have hcnt : recCount vid (r :: rs) = recCount vid rs := by
        simp [recCount, List.filter_cons, hvr]
      refine ih (t.map (updFun now r)) vid hnex ?_
      rw [rowIds_map (updFun now r) (updFun_videoId now r)]
      rw [hcnt] at hcond
      exact hcond
    · by_cases hrt : r.videoId ∈ rowIds t
      · have hstep : upsert_one now existing t r =
            .error "UNIQUE constraint failed: videos.videoId" := by
          unfold upsert_one
          rw [if_neg hre, if_pos hrt]
        rw [db_upsert_go, hstep]
        rfl
      · have hstep : upsert_one now existing t r =
            .ok (t ++ [insertRow now r (maxSerial t + 1)]) := by
          unfold upsert_one
          rw [if_neg hre, if_neg hrt]
        rw [db_upsert_go_cons_ok now existing t r rs _ hstep]
        by_cases hveq : r.videoId = vid
        · have hnt : vid ∉ rowIds t := hveq ▸ hrt
          have hc2 : 2 ≤ recCount vid (r :: rs) := by
            rcases hcond with ⟨hmem, _⟩ | hc
            · exact absurd hmem hnt
            · exact hc
          have hcnt : recCount vid (r :: rs) = recCount vid rs + 1 := by
            simp [recCount, List.filter_cons, hveq]
          have h1 : 1 ≤ recCount vid rs := by omega
          refine ih (t ++ [insertRow now r (maxSerial t + 1)]) vid hnex
            (Or.inl ⟨?_, h1⟩)
          simp only [rowIds, List.map_append]
          simp [insertRow, hveq]
        · have hcnt : recCount vid (r :: rs) = recCount vid rs := by
            simp [recCount, List.filter_cons, hveq]
          rw [hcnt] at hcond
          refine ih (t ++ [insertRow now r (maxSerial t + 1)]) vid hnex ?_
          rcases hcond with ⟨hmem, hc⟩ | hc
          · refine Or.inl ⟨?_, hc⟩
            simp only [rowIds, List.map_append]
            exact List.mem_append_left _ hmem
          · exact Or.inr hc

/-- C10: the set of already-present videoIds is computed once before the
loop, so a batch containing two records with the same videoId that is not
yet stored sends both down the insert path; the second insert violates the
videoId primary key and the whole operation fails. Upsert is therefore only
safe when the new videoIds of a batch are pairwise distinct. -/
theorem upsert_duplicate_batch_fails (now : PyDateTime) (t : List Row)
    (l1 : List Rec) (r1 : Rec) (l2 : List Rec) (r2 : Rec) (l3 : List Rec)
    (hdup : r1.videoId = r2.videoId) (hnew : r1.videoId ∉ rowIds t) :
    upsertOk (db_upsert_videos now t (l1 ++ r1 :: l2 ++ r2 :: l3)) = false := by
  unfold db_upsert_videos
  have hnex : r1.videoId ∉ existingIds t (l1 ++ r1 :: l2 ++ r2 :: l3) :=
    fun hx => hnew (existingIds_sub t _ r1.videoId hx)
  refine db_upsert_go_dup_fails now _ _ t r1.videoId hnex (Or.inr ?_)
  have hc : recCount r1.videoId (l1 ++ r1 :: l2 ++ r2 :: l3) =
      recCount r1.videoId l1 + (1 + (recCount r1.videoId l2 +
        (1 + recCount r1.videoId l3))) := by
    simp [recCount, List.filter_append, List.filter_cons, hdup]
    omega
  omega

theorem upsert_duplicate_batch_fails_witness :
    upsertOk (db_upsert_videos now0 [] [mkRec "A", mkRec "A"]) = false :=
  upsert_duplicate_batch_fails now0 [] [] (mkRec "A") [] (mkRec "A") []
    rfl (by simp [rowIds])

theorem upsert_one_mem_src (now : PyDateTime) (existing : List String)
    (t : List Row) (r : Rec) (t2 : List Row)
    (h : upsert_one now existing t r = .ok t2) :
    ∀ row ∈ t2, row ∈ t ∨ row.videoId = r.videoId := by
  rcases upsert_one_cases now existing t r t2 h with ⟨_, rfl⟩ | ⟨_, _, rfl⟩
  · intro row hrow
    obtain ⟨row0, hrow0, rfl⟩ := List.mem_map.1 hrow
    unfold updFun
    split
    · right
      rename_i hv
      rw [show (updateRow now r row0).videoId = row0.videoId from rfl, hv]
    · exact Or.inl hrow0
  · intro row hrow
    rcases List.mem_append.1 hrow with hmem | hmem
    · exact Or.inl hmem
    · right
      simp only [List.mem_singleton] at hmem
      subst hmem
      rfl

theorem upsert_one_writes_pub (now : PyDateTime) (existing : List String)
    (t : List Row) (r : Rec) (t2 : List Row)
    (h : upsert_one now existing t r = .ok t2) :
    ∀ row ∈ t2, row.videoId = r.videoId →
      row.publishedAt = ensure_sql_utc_string now r.publishedAt := by
  rcases upsert_one_cases now existing t r t2 h with ⟨_, rfl⟩ | ⟨_, hni, rfl⟩
  · intro row hrow hvid
    obtain ⟨row0, hrow0, rfl⟩ := List.mem_map.1 hrow
    unfold updFun at hvid ⊢
    split
    · rfl
    · rename_i hne
      rw [show (if row0.videoId = r.videoId then updateRow now r row0
          else row0).videoId = row0.videoId by rw [if_neg hne]] at hvid
      exact absurd hvid hne
  · intro row hrow hvid
    rcases List.mem_append.1 hrow with hmem | hmem
    · have hmm : row.videoId ∈ t.map (fun row => row.videoId) :=
        List.mem_map.2 ⟨row, hmem, rfl⟩
      rw [hvid] at hmm
      exact absurd hmm hni
    · simp only [List.mem_singleton] at hmem
      subst hmem
      rfl

theorem db_upsert_go_mem_src (now : PyDateTime) (existing : List String) :
    ∀ (rs : List Rec) (t t2 : List Row),
      db_upsert_go now existing t rs = .ok t2 →
      ∀ row ∈ t2, row ∈ t ∨ ∃ r ∈ rs, row.videoId = r.videoId := by
  intro rs
  induction rs with
  | nil =>
    intro t t2 h row hrow
    cases h
    exact Or.inl hrow
  | cons r rs ih =>
    intro t t2 h row hrow
    cases hstep : upsert_one now existing t r with
    | error e =>
      rw [db_upsert_go, hstep] at h
      cases h
    | ok tmid =>
      rw [db_upsert_go_cons_ok now existing t r rs tmid hstep] at h
      rcases ih tmid t2 h row hrow with hmid | ⟨r2, hr2, he⟩
      · rcases upsert_one_mem_src now existing t r tmid hstep row hmid with
          hmem | hvid
        · exact Or.inl hmem
        · exact Or.inr ⟨r, List.mem_cons_self r rs, hvid⟩
      · exact Or.inr ⟨r2, List.mem_cons_of_mem r hr2, he⟩

theorem db_upsert_go_written (now : PyDateTime) (existing : List String) :
    ∀ (rs : List Rec) (t t2 : List Row),
      db_upsert_go now existing t rs = .ok t2 →
      ∀ row ∈ t2, row.videoId ∈ rs.map Rec.videoId →
        ∃ r, r ∈ rs ∧ row.videoId = r.videoId ∧
          row.publishedAt = ensure_sql_utc_string now r.publishedAt := by
  intro rs
  induction rs with
  | nil =>
    intro t t2 _ row _ hvid
    simp at hvid
  | cons r rs ih =>
    intro t t2 h row hrow hvid
    cases hstep : upsert_one now existing t r with
    | error e =>
      rw [db_upsert_go, hstep] at h
      cases h
    | ok tmid =>
      rw [db_upsert_go_cons_ok now existing t r rs tmid hstep] at h
      by_cases hin : row.videoId ∈ rs.map Rec.videoId
      · obtain ⟨r2, hr2, he, hp⟩ := ih tmid t2 h row hrow hin
        exact ⟨r2, List.mem_cons_of_mem r hr2, he, hp⟩
      · have hveq : row.videoId = r.videoId := by
          rcases List.mem_cons.1 hvid with he | he
          · exact he
          · exact absurd he hin
        rcases db_upsert_go_mem_src now existing rs tmid t2 h row hrow with
          hmid | ⟨r2, hr2, he⟩
        · exact ⟨r, List.mem_cons_self r rs,
            hveq, upsert_one_writes_pub now existing t r tmid hstep row hmid hveq⟩
        · exact absurd (he ▸ List.mem_map.2 ⟨r2, hr2, rfl⟩ :
            row.videoId ∈ rs.map Rec.videoId) hin

theorem publishedAt_immutable_cex :
    db_upsert_videos now0 [rowC3] [recC3] = .ok [updFun now0 recC3 rowC3]
    ∧ (updFun now0 recC3 rowC3).publishedAt = "2025-02-02 12:00:00"
    ∧ rowC3.publishedAt = "2024-01-01 00:00:00"
    ∧ (updFun now0 recC3 rowC3).publishedAt ≠ rowC3.publishedAt :=
  ⟨rfl, rfl, rfl, by decide⟩

/-- C3 (amended): publishedAt is not immutable after first write: the UPDATE
overwrites it on every subsequent upsert of the same videoId with the
normalization of the incoming value, exactly like the other mutable columns
(only serial and firstSeenSource are insert-time-only). -/
theorem upsert_publishedAt_overwrite (now : PyDateTime) (t : List Row)
    (rs : List Rec) (t2 : List Row)
    (h : db_upsert_videos now t rs = .ok t2) :
    ∀ row ∈ t2, row.videoId ∈ rs.map Rec.videoId →
      ∃ r, r ∈ rs ∧ row.videoId = r.videoId ∧
        row.publishedAt = ensure_sql_utc_string now r.publishedAt :=
  db_upsert_go_written now (existingIds t rs) rs t t2 h

theorem upsert_publishedAt_overwrite_witness :
    ∃ r, r ∈ [recC3] ∧ (updFun now0 recC3 rowC3).videoId = r.videoId ∧
      (updFun now0 recC3 rowC3).publishedAt =
        ensure_sql_utc_string now0 r.publishedAt :=
  upsert_publishedAt_overwrite now0 [rowC3] [recC3] [updFun now0 recC3 rowC3]
    rfl (updFun now0 recC3 rowC3) (by simp) (by decide)

theorem digitChar_isDigit (n : Nat) (h : n < 10) :
    (Nat.digitChar n).isDigit = true := by
  interval_cases n <;> decide

theorem to_sql_format (d : PyDateTime) (h : d.valid = true) :
    isSqlUtcString (to_sql_utc_string d) = true := by
  simp only [PyDateTime.valid, Bool.and_eq_true, decide_eq_true_eq] at h
  obtain ⟨⟨⟨⟨⟨⟨⟨⟨h1, h2⟩, h3⟩, h4⟩, h5⟩, h6⟩, h7⟩, h8⟩, h9⟩ := h
  show checkFormat 0 (pad4 d.year ++ '-' :: pad2 d.month ++ '-' :: pad2 d.day ++
    ' ' :: pad2 d.hour ++ ':' :: pad2 d.minute ++ ':' :: pad2 d.second) = true
  have e01 : (d.year / 1000).digitChar.isDigit = true :=
    digitChar_isDigit _ (by omega)
  have e02 : (d.year / 100 % 10).digitChar.isDigit = true :=
    digitChar_isDigit _ (by omega)
  have e03 : (d.year / 10 % 10).digitChar.isDigit = true :=
    digitChar_isDigit _ (by omega)
  have e04 : (d.year % 10).digitChar.isDigit = true :=
    digitChar_isDigit _ (by omega)
  have e05 : (d.month / 10).digitChar.isDigit = true :=
    digitChar_isDigit _ (by omega)
  have e06 : (d.month % 10).digitChar.isDigit = true :=
    digitChar_isDigit _ (by omega)
  have e07 : (d.day / 10).digitChar.isDigit = true :=
    digitChar_isDigit _ (by omega)
  have e08 : (d.day % 10).digitChar.isDigit = true :=
    digitChar_isDigit _ (by omega)
  have e09 : (d.hour / 10).digitChar.isDigit = true :=
    digitChar_isDigit _ (by omega)
  have e10 : (d.hour % 10).digitChar.isDigit = true :=
    digitChar_isDigit _ (by omega)
  have e11 : (d.minute / 10).digitChar.isDigit = true :=
    digitChar_isDigit _ (by omega)
  have e12 : (d.minute % 10).digitChar.isDigit = true :=
    digitChar_isDigit _ (by omega)
  have e13 : (d.second / 10).digitChar.isDigit = true :=
    digitChar_isDigit _ (by omega)
  have e14 : (d.second % 10).digitChar.isDigit = true :=
    digitChar_isDigit _ (by omega)
  simp [pad4, pad2, checkFormat, isSqlUtcChar,
    e01, e02, e03, e04, e05, e06, e07, e08, e09, e10, e11, e12, e13, e14]

theorem ensure_format (now : PyDateTime) (hn : now.valid = true) (r : Rec)
    (hr : pubOkRec r = true) :
    isSqlUtcString (ensure_sql_utc_string now r.publishedAt) = true := by
  cases hp : r.publishedAt with
  | dt d =>
    rw [pubOkRec, hp] at hr
    exact to_sql_format d hr
  | str s =>
    rw [pubOkRec, hp] at hr
    cases hr
  | null => exact to_sql_format now hn

theorem publishedAt_normal_form_cex :
    db_upsert_videos now0 [] [recC4] = .ok [insertRow now0 recC4 1]
    ∧ (insertRow now0 recC4 1).publishedAt = "not-a-timestamp"
    ∧ isSqlUtcString (insertRow now0 recC4 1).publishedAt = false :=
  ⟨rfl, rfl, by decide⟩

/-- C4 (amended): every row written by the upsert carries a publishedAt in
the normalized form YYYY-MM-DD HH:MM:SS provided the record supplied a
structured (valid) timestamp or no value at all; a record supplying a raw
string has it stored verbatim, so the normal form is not guaranteed for
string inputs. -/
theorem upsert_publishedAt_normal_form (now : PyDateTime) (t : List Row)
    (rs : List Rec) (t2 : List Row) (hn : now.valid = true)
    (hrs : ∀ r ∈ rs, pubOkRec r = true)
    (h : db_upsert_videos now t rs = .ok t2) :
    ∀ row ∈ t2, row.videoId ∈ rs.map Rec.videoId →
      isSqlUtcString row.publishedAt = true := by
  intro row hrow hvid
  obtain ⟨r, hr, _, hp⟩ :=
    db_upsert_go_written now (existingIds t rs) rs t t2 h row hrow hvid
  rw [hp]
  exact ensure_format now hn r (hrs r hr)

theorem upsert_publishedAt_normal_form_witness :
    isSqlUtcString (insertRow now0 recC4b 1).publishedAt = true :=
  upsert_publishedAt_normal_form now0 [] [recC4b] [insertRow now0 recC4b 1]
    (by decide) (by decide) rfl (insertRow now0 recC4b 1) (by simp) (by decide)
